import Mathlib

/-!
# Verification of the uk-reporting-etfs identifier pipeline

Shallow embedding of the core algorithms of the `uk-reporting-etfs`
repository (checksum engine, candidate filter, errata merger, OpenFIGI
query planner and best-match selection, enrichment merger, batching),
together with theorems settling the specification claims.

Python strings are modelled as `String`/`List Char`; `None` becomes
`none`; Python truthiness of an optional string (`None` and `''` are
falsy) is `truthyOS`.  Dictionaries are modelled as insertion-ordered
association lists with in-place overwrite on update, matching `dict`
semantics.
-/

namespace UkEtf

/-! ## Basic Python-modelling utilities -/

/-- Python truthiness of an optional string: `None` and the empty string
are falsy, every other string is truthy. -/
def truthyOS : Option String → Bool
  | none => false
  | some s => !s.isEmpty

/-- Characters stripped by Python `str.strip()` (ASCII whitespace). -/
def isPyWs (c : Char) : Bool :=
  c == ' ' || c == '\t' || c == '\n' || c == '\x0d' || c == '\x0b' || c == '\x0c'

/-- Python `str.strip()` on a character list. -/
def pyStrip (l : List Char) : List Char :=
  ((l.dropWhile isPyWs).reverse.dropWhile isPyWs).reverse

/-- Python `\d`: an ASCII decimal digit. -/
def isPyDigit (c : Char) : Bool := '0' ≤ c && c ≤ '9'

/-- Numeric value of a digit character (`int(c)` in Python). -/
def digitVal (c : Char) : Nat := c.toNat - 48

/-- Python `str(n)` for the small numbers this program produces (all are
below 100: letter codes are at most 35 and doubled digits at most 18).
Larger numbers never arise, so they are given a junk value. -/
def natToChars (n : Nat) : List Char :=
  if n < 10 then [Char.ofNat (48 + n)]
  else if n < 100 then [Char.ofNat (48 + n / 10), Char.ofNat (48 + n % 10)]
  else []

/-- Python slice `s[a:b]` (with the usual clamping). -/
def pySlice (s : String) (a b : Nat) : String :=
  String.mk ((s.toList.drop a).take (b - a))

/-- An uppercase ASCII letter (`[A-Z]`). -/
def isUpperLetter (c : Char) : Bool := 'A' ≤ c && c ≤ 'Z'

/-- An uppercase ASCII alphanumeric character (`[0-9A-Z]`). -/
def isUpperAlnum (c : Char) : Bool :=
  isPyDigit c || isUpperLetter c

/-! ## Checksum Engine (`_cusip_isin.py`) -/

/-- Per-character CUSIP contribution table (`cusip_char_value`); the
source raises on characters outside the table, which never happens for
normalized `[0-9A-Z]` input — unknown characters get a junk value 0. -/
def cusip_char_value (c : Char) (is_odd : Bool) : Nat :=
  if c == '0' then 0
  else if c == 'J' || c == 'S' then (if is_odd then 0 else 1)
  else if c == '1' || c == 'A' then (if is_odd then 1 else 2)
  else if c == 'T' then (if is_odd then 1 else 3)
  else if c == '2' || c == 'B' || c == 'K' then (if is_odd then 2 else 4)
  else if c == '3' || c == 'C' || c == 'L' || c == 'U' then (if is_odd then 3 else 6)
  else if c == '4' || c == 'D' || c == 'M' || c == 'V' then (if is_odd then 4 else 8)
  else if c == 'E' || c == 'N' || c == 'W' then (if is_odd then 5 else 0)
  else if c == '5' then (if is_odd then 5 else 1)
  else if c == 'O' || c == 'X' then (if is_odd then 6 else 2)
  else if c == '6' || c == 'F' then (if is_odd then 6 else 3)
  else if c == 'Y' then (if is_odd then 7 else 4)
  else if c == '7' || c == 'G' || c == 'P' then (if is_odd then 7 else 5)
  else if c == '8' || c == 'H' || c == 'Q' || c == 'Z' then (if is_odd then 8 else 7)
  else if c == '9' || c == 'I' || c == 'R' then 9
  else 0

/-- Core of `cusip_check_digit`: sum the per-character values (the flag
is `i % 2 == 0` per `enumerate`) and return `(10 - x % 10) % 10`. -/
def cusip_check_digit_val (l : List Char) : Nat :=
  let x := (l.enum.map fun p => cusip_char_value p.2 (p.1 % 2 == 0)).sum
  (10 - x % 10) % 10

/-- `cusip_check_digit(s)`: the expected ninth character of a CUSIP given
its first eight characters, as a one-character string. -/
def cusip_check_digit (s : String) : String :=
  String.mk [Char.ofNat (48 + cusip_check_digit_val s.toList)]

/-- The `re.sub('[A-Z]', lambda m: str(ord(m.group(0)) - 55), s)` step of
`isin_check_digit`: each uppercase letter is replaced by the decimal
representation of its code, every other character is kept. -/
def expandLetter (c : Char) : List Char :=
  if isUpperLetter c then natToChars (c.toNat - 55) else [c]

/-- `''.join(c for i, c in enumerate(s) if i % 2 == 0)` — the characters
at even 0-based positions (bound to the variable `odds` in the source). -/
def charsAtEvenIdx (l : List Char) : List Char :=
  ((l.enum.filter fun p => p.1 % 2 == 0).map Prod.snd)

/-- `''.join(c for i, c in enumerate(s) if i % 2 == 1)` — the characters
at odd 0-based positions (bound to the variable `evens` in the source). -/
def charsAtOddIdx (l : List Char) : List Char :=
  ((l.enum.filter fun p => p.1 % 2 == 1).map Prod.snd)

/-- `re.sub(r'\d', lambda m: str(int(m.group(0)) * 2), s)`: every digit
character is replaced by the decimal representation of its double. -/
def doubleDigits (l : List Char) : List Char :=
  l.flatMap fun c => if isPyDigit c then natToChars (2 * digitVal c) else [c]

/-- Core of `isin_check_digit` on a character list: expand letters, split
the *expanded* digit string by position parity, double the odd-indexed
half when the halves have equal length and the even-indexed half
otherwise, sum all digits, and return `(10 - x % 10) % 10`. -/
def isin_check_digit_val (s : List Char) : Nat :=
  let e := s.flatMap expandLetter
  let odds := charsAtEvenIdx e
  let evens := charsAtOddIdx e
  let pair := if evens.length == odds.length
    then (doubleDigits evens, odds)
    else (evens, doubleDigits odds)
  let x := ((pair.1 ++ pair.2).map digitVal).sum
  (10 - x % 10) % 10

/-- `isin_check_digit(s)`: the expected twelfth character of an ISIN
given its first eleven characters, as a one-character string. -/
def isin_check_digit (s : String) : String :=
  String.mk [Char.ofNat (48 + isin_check_digit_val s.toList)]

/-- `make_isin_from_cusip(cusip)`: prepend `"US"`, append the check digit. -/
def make_isin_from_cusip (cusip : String) : String :=
  "US" ++ cusip ++ isin_check_digit ("US" ++ cusip)

/-! ### The ISIN check digit as the specification describes it (claim C1)

The spec asserts the parity split happens on the positions of the
*original pre-expansion* 11-character string and that the *even-indexed*
half is doubled when the halves have equal length.  The following
definition transcribes that description verbatim so it can be compared
with `isin_check_digit_val`. -/

/-- The subsequence of digits obtained by expanding the characters at
even 0-indexed positions of the original (pre-expansion) string. -/
def claimEvenHalf (s : List Char) : List Char :=
  (charsAtEvenIdx s).flatMap expandLetter

/-- The subsequence of digits obtained by expanding the characters at
odd 0-indexed positions of the original (pre-expansion) string. -/
def claimOddHalf (s : List Char) : List Char :=
  (charsAtOddIdx s).flatMap expandLetter

/-- The ISIN check-digit algorithm exactly as claim C1 words it: split by
pre-expansion position parity, double the even-indexed half when the two
halves have equal length and the odd-indexed half otherwise. -/
def isin_check_digit_claimed_val (s : List Char) : Nat :=
  let ev := claimEvenHalf s
  let od := claimOddHalf s
  let pair := if ev.length == od.length
    then (doubleDigits ev, od)
    else (doubleDigits od, ev)
  let x := ((pair.1 ++ pair.2).map digitVal).sum
  (10 - x % 10) % 10

/-- Luhn digit contribution of a doubled decimal digit: the decimal
digit sum of `2 * d` for `d ≤ 9`. -/
def luhnDouble (d : Nat) : Nat := if 2 * d ≤ 9 then 2 * d else 2 * d - 9

/-- The ISIN check-digit algorithm as the amended claim words it: expand
letters, then over the *expanded* digit string double the digit at index
`i` exactly when `i` and the expanded length have different parities
(equal-length halves ⇒ the odd-indexed half is doubled, unequal ⇒ the
even-indexed half), sum the decimal digits of the results. -/
def isin_check_digit_amended_val (s : List Char) : Nat :=
  let ds := (s.flatMap expandLetter).map digitVal
  let m := ds.length
  let x := (ds.enum.map fun p =>
    if p.1 % 2 == m % 2 then p.2 else luhnDouble p.2).sum
  (10 - x % 10) % 10

/-! ### Proof machinery for the checksum claims -/

/-- Proof-side companion of the parity split: `(altSplit l).1` collects
the even-indexed elements of `l` and `(altSplit l).2` the odd-indexed
ones, by structural recursion. -/
def altSplit {α : Type} : List α → List α × List α
  | [] => ([], [])
  | a :: l => ((altSplit l).2.cons a, (altSplit l).1)

/-- Proof-side companion of a parity-alternating sum: apply `f` at even
positions and `g` at odd ones. -/
def altSum {α : Type} (f g : α → Nat) : List α → Nat
  | [] => 0
  | a :: l => f a + altSum g f l

theorem isPyDigit_iff (c : Char) : isPyDigit c = true ↔ 48 ≤ c.toNat ∧ c.toNat ≤ 57 := by
  simp only [isPyDigit, Char.le_def, Bool.and_eq_true, decide_eq_true_eq]
  exact Iff.rfl

theorem isUpperLetter_iff (c : Char) : isUpperLetter c = true ↔ 65 ≤ c.toNat ∧ c.toNat ≤ 90 := by
  simp only [isUpperLetter, Char.le_def, Bool.and_eq_true, decide_eq_true_eq]
  exact Iff.rfl

theorem toNat_ofNat_small {n : Nat} (h : n < 55296) : (Char.ofNat n).toNat = n := by
  simp only [Char.ofNat, Nat.isValidChar, Char.ofNatAux, Char.toNat]
  rw [dif_pos (Or.inl h)]
  rfl

theorem isPyDigit_ofNat_digit {n : Nat} (h : n ≤ 9) :
    isPyDigit (Char.ofNat (48 + n)) = true := by
  rw [isPyDigit_iff, toNat_ofNat_small (by omega)]
  omega

theorem natToChars_digits {n : Nat} (h : n < 100) :
    ∀ c ∈ natToChars n, isPyDigit c = true := by
  intro c hc
  unfold natToChars at hc
  by_cases h10 : n < 10
  · rw [if_pos h10] at hc
    simp only [List.mem_singleton] at hc
    subst hc
    exact isPyDigit_ofNat_digit (by omega)
  · rw [if_neg h10, if_pos h] at hc
    simp only [List.mem_cons, List.not_mem_nil, or_false] at hc
    rcases hc with hc | hc <;> subst hc
    · exact isPyDigit_ofNat_digit (by omega)
    · exact isPyDigit_ofNat_digit
        (by have := Nat.mod_lt n (show 0 < 10 by omega); omega)

theorem expandLetter_digits {c : Char} (h : isUpperAlnum c = true) :
    ∀ d ∈ expandLetter c, isPyDigit d = true := by
  intro d hd
  unfold expandLetter at hd
  split at hd
  · rename_i hlet
    have := (isUpperLetter_iff c).1 hlet
    exact natToChars_digits (by omega) d hd
  · rename_i hlet
    simp only [List.mem_singleton] at hd
    subst hd
    unfold isUpperAlnum at h
    cases hdig : isPyDigit d
    · rw [hdig, Bool.false_or] at h
      exact absurd h hlet
    · rfl

theorem flatMap_expandLetter_digits {s : List Char}
    (hs : ∀ c ∈ s, isUpperAlnum c = true) :
    ∀ d ∈ s.flatMap expandLetter, isPyDigit d = true := by
  intro d hd
  rw [List.mem_flatMap] at hd
  obtain ⟨a, ha, hda⟩ := hd
  exact expandLetter_digits (hs a ha) d hda

theorem altSplit_nil {α : Type} : altSplit ([] : List α) = ([], []) := rfl

theorem altSplit_cons {α : Type} (a : α) (l : List α) :
    altSplit (a :: l) = (a :: (altSplit l).2, (altSplit l).1) := rfl

theorem altSplit_mem {α : Type} (l : List α) :
    (∀ a ∈ (altSplit l).1, a ∈ l) ∧ (∀ a ∈ (altSplit l).2, a ∈ l) := by
  induction l with
  | nil => simp [altSplit_nil]
  | cons a l ih =>
    simp only [altSplit_cons, List.mem_cons]
    constructor
    · intro b hb
      rcases hb with hb | hb
      · exact Or.inl hb
      · exact Or.inr (ih.2 b hb)
    · intro b hb
      exact Or.inr (ih.1 b hb)

theorem altSplit_map {α β : Type} (f : α → β) (l : List α) :
    altSplit (l.map f) = ((altSplit l).1.map f, (altSplit l).2.map f) := by
  induction l with
  | nil => simp [altSplit_nil]
  | cons a l ih => simp [altSplit_cons, ih]

theorem altSplit_length {α : Type} (l : List α) :
    (altSplit l).1.length = (l.length + 1) / 2 ∧
      (altSplit l).2.length = l.length / 2 := by
  induction l with
  | nil => simp [altSplit_nil]
  | cons a l ih =>
    simp only [altSplit_cons, List.length_cons]
    constructor
    · simp only [List.length_cons, ih.2]
      omega
    · rw [ih.1]

/-- The parity-filtered views of `enumFrom` coincide with `altSplit`. -/
theorem enumFrom_parity_split {α : Type} (l : List α) : ∀ n : Nat,
    (((l.enumFrom n).filter fun p => p.1 % 2 == n % 2).map Prod.snd) = (altSplit l).1 ∧
    (((l.enumFrom n).filter fun p => p.1 % 2 == (n + 1) % 2).map Prod.snd) = (altSplit l).2 := by
  induction l with
  | nil => intro n; simp [altSplit]
  | cons a l ih =>
    intro n
    have hne : ((n : Nat) % 2 == (n + 1) % 2) = false := by
      simp only [beq_eq_false_iff_ne, ne_eq]
      omega
    have hswap : (n : Nat) % 2 = (n + 1 + 1) % 2 := by omega
    constructor
    · rw [List.enumFrom_cons, List.filter_cons, if_pos (by simp)]
      rw [List.map_cons]
      have h2 := (ih (n + 1)).2
      rw [show (fun (p : Nat × α) => p.1 % 2 == n % 2)
            = (fun p => p.1 % 2 == (n + 1 + 1) % 2) from funext fun p => by rw [← hswap]]
      rw [h2]
      rfl
    · rw [List.enumFrom_cons, List.filter_cons, if_neg (by simp [hne])]
      exact (ih (n + 1)).1

theorem charsAtEvenIdx_eq (l : List Char) : charsAtEvenIdx l = (altSplit l).1 := by
  have h := (enumFrom_parity_split l 0).1
  simpa [charsAtEvenIdx, List.enum] using h

theorem charsAtOddIdx_eq (l : List Char) : charsAtOddIdx l = (altSplit l).2 := by
  have h := (enumFrom_parity_split l 0).2
  simpa [charsAtOddIdx, List.enum] using h

/-- Swapping the two branch functions flips which parity class they see. -/
theorem parity_if_swap {α : Type} (f g : α → Nat) (n a : Nat) (x : α) :
    (if a % 2 == n % 2 then f x else g x)
      = (if a % 2 == (n + 1) % 2 then g x else f x) := by
  have ha := Nat.mod_two_eq_zero_or_one a
  have hn := Nat.mod_two_eq_zero_or_one n
  have h1 : (n + 1) % 2 = 1 - n % 2 := by omega
  rcases ha with h | h <;> rcases hn with h' | h' <;> simp [h, h', h1]

theorem enumFrom_parity_sum {α : Type} (l : List α) : ∀ (n : Nat) (f g : α → Nat),
    ((l.enumFrom n).map fun p => if p.1 % 2 == n % 2 then f p.2 else g p.2).sum
      = altSum f g l := by
  induction l with
  | nil => intro n f g; simp [altSum]
  | cons a l ih =>
    intro n f g
    rw [List.enumFrom_cons, List.map_cons, List.sum_cons]
    rw [if_pos (by simp)]
    have hfun : (fun (p : Nat × α) => if p.1 % 2 == n % 2 then f p.2 else g p.2)
        = (fun p => if p.1 % 2 == (n + 1) % 2 then g p.2 else f p.2) :=
      funext fun p => parity_if_swap f g n p.1 p.2
    rw [hfun, ih (n + 1) g f]
    rfl

theorem enum_parity_sum_even {α : Type} (l : List α) (f g : α → Nat) :
    (l.enum.map fun p => if p.1 % 2 == 0 then f p.2 else g p.2).sum = altSum f g l := by
  have h := enumFrom_parity_sum l 0 f g
  simpa [List.enum] using h

theorem enum_parity_sum_odd {α : Type} (l : List α) (f g : α → Nat) :
    (l.enum.map fun p => if p.1 % 2 == 1 then f p.2 else g p.2).sum = altSum g f l := by
  have h := enumFrom_parity_sum l 0 g f
  rw [show (fun (p : Nat × α) => if p.1 % 2 == 1 then f p.2 else g p.2)
      = (fun p => if p.1 % 2 == 0 % 2 then g p.2 else f p.2) from
    funext fun p => (parity_if_swap g f 0 p.1 p.2).symm]
  simpa [List.enum] using h

theorem altSum_eq_split {α : Type} (l : List α) : ∀ f g : α → Nat,
    altSum f g l = ((altSplit l).1.map f).sum + ((altSplit l).2.map g).sum := by
  induction l with
  | nil => intro f g; simp [altSum, altSplit_nil]
  | cons a l ih =>
    intro f g
    simp only [altSum, altSplit_cons, List.map_cons, List.sum_cons, ih g f]
    omega

theorem natToChars_double_sum {d : Nat} (h : d ≤ 9) :
    ((natToChars (2 * d)).map digitVal).sum = luhnDouble d := by
  interval_cases d <;> decide

theorem doubleDigits_cons (c : Char) (l : List Char) :
    doubleDigits (c :: l)
      = (if isPyDigit c then natToChars (2 * digitVal c) else [c]) ++ doubleDigits l := by
  simp [doubleDigits]

theorem doubleDigits_sum {l : List Char} (h : ∀ c ∈ l, isPyDigit c = true) :
    ((doubleDigits l).map digitVal).sum = (l.map fun c => luhnDouble (digitVal c)).sum := by
  induction l with
  | nil => simp [doubleDigits]
  | cons c l ih =>
    have hc := h c (List.mem_cons_self c l)
    have hd : digitVal c ≤ 9 := by
      have := (isPyDigit_iff c).1 hc
      unfold digitVal
      omega
    rw [doubleDigits_cons, if_pos hc, List.map_append, List.sum_append,
      List.map_cons, List.sum_cons]
    rw [ih fun x hx => h x (List.mem_cons_of_mem c hx)]
    rw [natToChars_double_sum hd]

/-- Core of the amended claim C1: on uppercase-alphanumeric input the
source algorithm and the amended description compute the same value. -/
theorem isin_check_digit_val_amended {s : List Char}
    (halnum : ∀ c ∈ s, isUpperAlnum c = true) :
    isin_check_digit_val s = isin_check_digit_amended_val s := by
  simp only [isin_check_digit_val, isin_check_digit_amended_val]
  set e := s.flatMap expandLetter with he
  have hdig : ∀ d ∈ e, isPyDigit d = true := flatMap_expandLetter_digits halnum
  have hdigE : ∀ d ∈ (altSplit e).1, isPyDigit d = true :=
    fun d hd => hdig d ((altSplit_mem e).1 d hd)
  have hdigO : ∀ d ∈ (altSplit e).2, isPyDigit d = true :=
    fun d hd => hdig d ((altSplit_mem e).2 d hd)
  rw [charsAtEvenIdx_eq, charsAtOddIdx_eq, List.length_map]
  have hlen := altSplit_length e
  have hsplitmap := altSplit_map digitVal e
  rcases Nat.mod_two_eq_zero_or_one e.length with hm | hm
  · -- even expanded length: the halves have equal length,
    -- the odd-indexed half is doubled
    rw [if_pos (by rw [hlen.1, hlen.2]; simp only [beq_iff_eq]; omega), hm]
    have hsum : ((e.map digitVal).enum.map fun p =>
          if p.1 % 2 == 0 then p.2 else luhnDouble p.2).sum
        = altSum (fun d => d) luhnDouble (e.map digitVal) :=
      enum_parity_sum_even (e.map digitVal) (fun d => d) luhnDouble
    rw [hsum, altSum_eq_split, hsplitmap]
    rw [List.map_append, List.sum_append, doubleDigits_sum hdigO]
    rw [List.map_id', List.map_map]
    simp only [Function.comp_def]
    omega
  · -- odd expanded length: the halves differ in length,
    -- the even-indexed half is doubled
    rw [if_neg (by rw [hlen.1, hlen.2]; simp only [beq_iff_eq]; omega), hm]
    have hsum : ((e.map digitVal).enum.map fun p =>
          if p.1 % 2 == 1 then p.2 else luhnDouble p.2).sum
        = altSum luhnDouble (fun d => d) (e.map digitVal) :=
      enum_parity_sum_odd (e.map digitVal) (fun d => d) luhnDouble
    rw [hsum, altSum_eq_split, hsplitmap]
    rw [List.map_append, List.sum_append, doubleDigits_sum hdigE]
    rw [List.map_id', List.map_map]
    simp only [Function.comp_def]
    omega

/-- **C1 — counterexample.** At the 11-character uppercase alphanumeric
input `"US000000000"` the source `isin_check_digit` returns `"2"`, while
the procedure described by the claim (parity split on the pre-expansion
character positions, even-indexed half doubled when the halves have
equal length, odd-indexed half otherwise) yields the digit 6; the
claim's description therefore does not compute `isin_check_digit`. -/
theorem claim_C1_counterexample :
    isin_check_digit "US000000000" = "2" ∧
      isin_check_digit_claimed_val "US000000000".toList = 6 ∧
      isin_check_digit_val "US000000000".toList
        ≠ isin_check_digit_claimed_val "US000000000".toList := by
  refine ⟨by decide, by decide, by decide⟩

/-- **C1 — amended.** For every 11-character uppercase alphanumeric
string, `isin_check_digit` computes the check digit by expanding each
letter A–Z to its two-digit code, splitting the *expanded* digit string
into two subsequences by 0-indexed position parity, doubling the
odd-indexed half when the two halves have equal length and the
even-indexed half otherwise, summing the decimal digits of all
resulting values, and returning `(10 - (sum mod 10)) mod 10` as a digit
character. -/
theorem claim_C1_amended (s : String) (_h11 : s.toList.length = 11)
    (halnum : ∀ c ∈ s.toList, isUpperAlnum c = true) :
    isin_check_digit s
      = String.mk [Char.ofNat (48 + isin_check_digit_amended_val s.toList)] := by
  unfold isin_check_digit
  rw [isin_check_digit_val_amended halnum]

/-- Witness for `claim_C1_amended` at the concrete input `"US037833100"`. -/
theorem claim_C1_witness :
    ("US037833100".toList.length = 11
        ∧ ∀ c ∈ "US037833100".toList, isUpperAlnum c = true)
      ∧ isin_check_digit "US037833100"
        = String.mk [Char.ofNat (48 + isin_check_digit_amended_val "US037833100".toList)] :=
  ⟨⟨by decide, by decide⟩, claim_C1_amended "US037833100" (by decide) (by decide)⟩

/-! ## Data model (`_csv_formats.py`) -/

/-- One fund/share-class record (`FundInfo` dataclass).  Every field is
an optional string; `None` is `none`. -/
structure FundInfo where
  share_class_ref : Option String
  family : Option String
  fund_name : Option String
  isin : Option String
  cusip : Option String
  from_date : Option String
  to_date : Option String
  ticker : Option String := none
  category : Option String := none
  figi : Option String := none
deriving DecidableEq, Repr

/-- One resolved ticker record (`TickerInfo` dataclass). -/
structure TickerInfo where
  ticker : Option String
  cusip : String
  fund_name : Option String := none
  figi : Option String := none
  exchange : Option String := none
deriving DecidableEq, Repr

/-! ## Errata Merger (`filter-hmrc-sheet.py`, `merge_fundinfos`) -/

/-- `merge_fundinfos(dest, src)`: each of the six data fields of `dest`
is overwritten by the corresponding field of `src` when that field is
truthy (non-`None` and non-empty). -/
def merge_fundinfos (dest src : FundInfo) : FundInfo :=
  let d := if truthyOS src.family then { dest with family := src.family } else dest
  let d := if truthyOS src.fund_name then { d with fund_name := src.fund_name } else d
  let d := if truthyOS src.isin then { d with isin := src.isin } else d
  let d := if truthyOS src.cusip then { d with cusip := src.cusip } else d
  let d := if truthyOS src.from_date then { d with from_date := src.from_date } else d
  if truthyOS src.to_date then { d with to_date := src.to_date } else d

/-- **C9.** Applying an erratum replaces exactly the fields that are
non-blank (truthy: non-null and non-empty) in the erratum and leaves
every other field — including the blank-erratum ones and the fields the
merger never touches (`share_class_ref`, `ticker`, `category`, `figi`)
— unchanged. -/
theorem claim_C9_errata_merge (dest src : FundInfo) :
    merge_fundinfos dest src = { dest with
      family := if truthyOS src.family then src.family else dest.family,
      fund_name := if truthyOS src.fund_name then src.fund_name else dest.fund_name,
      isin := if truthyOS src.isin then src.isin else dest.isin,
      cusip := if truthyOS src.cusip then src.cusip else dest.cusip,
      from_date := if truthyOS src.from_date then src.from_date else dest.from_date,
      to_date := if truthyOS src.to_date then src.to_date else dest.to_date } := by
  unfold merge_fundinfos
  repeat' split
  all_goals rfl

/-! ## Candidate Filter (`filter-hmrc-sheet.py`, `sheet_to_fund_info`) -/

/-- The identifier cleanup `_REGEXP_NOT_ALNUM.sub('', x.strip().upper())`:
strip ASCII whitespace, uppercase, then drop every character outside
`[0-9A-Z]`.  (`Char.toUpper` matches Python `str.upper` on the ASCII
identifiers this pipeline handles.) -/
def normalizeId (s : String) : String :=
  String.mk (((pyStrip s.toList).map Char.toUpper).filter isUpperAlnum)

/-- The CUSIP branch of the candidate filter (source lines: the
`if fund.cusip is not None:` block).  A `None` cusip is left alone;
otherwise it is normalized and then repaired/validated/discarded. -/
def normalize_cusip : Option String → Option String
  | none => none
  | some c0 =>
    let c := normalizeId c0
    if !c.isEmpty then
      if c.length = 8 then some (c ++ cusip_check_digit c)
      else if c.length ≠ 9 then none
      else if cusip_check_digit (pySlice c 0 8) ≠ pySlice c 8 9 then none
      else some c
    else some c

/-- The cusip handling exactly as claim C4 words it: normalize; length 8
⇒ append the check digit; length neither 8 nor 9 ⇒ null; length 9 with a
check-digit mismatch ⇒ null; otherwise keep. -/
def cusip_filter_claimed (c0 : String) : Option String :=
  let n := normalizeId c0
  if n.length = 8 then some (n ++ cusip_check_digit n)
  else if n.length ≠ 9 then none
  else if cusip_check_digit (pySlice n 0 8) ≠ pySlice n 8 9 then none
  else some n

/-- The cusip handling as the amended claim words it: as claimed, except
that a cusip whose normalization is empty is kept as the empty string
(it is merely falsy, not null). -/
def cusip_filter_amended (c0 : String) : Option String :=
  let n := normalizeId c0
  if n.length = 8 then some (n ++ cusip_check_digit n)
  else if n.length = 9 then
    if cusip_check_digit (pySlice n 0 8) = pySlice n 8 9 then some n else none
  else if n.isEmpty then some n
  else none

/-- **C4 — counterexample.** A cusip that normalizes to the empty string
(here `"--"`) is kept as `some ""` by the filter, whereas the claim
(length 0 is neither 8 nor 9) demands it be set to null. -/
theorem claim_C4_counterexample :
    normalize_cusip (some "--") = some ""
      ∧ cusip_filter_claimed "--" = none
      ∧ normalize_cusip (some "--") ≠ cusip_filter_claimed "--" := by
  refine ⟨by decide, by decide, by decide⟩

/-- **C4 — amended.** For every non-null cusip the filter behaves as the
claim describes, except that a cusip normalizing to the empty string is
kept as the (falsy) empty string instead of being set to null. -/
theorem claim_C4_amended (c0 : String) :
    normalize_cusip (some c0) = cusip_filter_amended c0 := by
  simp only [normalize_cusip, cusip_filter_amended]
  by_cases hemp : (normalizeId c0).isEmpty = true
  · have h0 : normalizeId c0 = "" := (String.isEmpty_iff _).1 hemp
    rw [h0]
    decide
  · simp only [Bool.not_eq_true] at hemp
    simp only [hemp, Bool.not_false, if_true]
    have hne : (normalizeId c0).length ≠ 0 := by
      intro h
      have h0 : normalizeId c0 = "" := by
        cases hni : normalizeId c0 with
        | mk data =>
          cases data with
          | nil => rfl
          | cons a l => rw [hni] at h; simp [String.length] at h
      rw [h0] at hemp
      exact absurd hemp (by decide)
    by_cases h8 : (normalizeId c0).length = 8
    · simp [h8]
    · rw [if_neg h8, if_neg h8]
      by_cases h9 : (normalizeId c0).length = 9
      · rw [if_neg (by omega), if_pos h9]
        by_cases hcd : cusip_check_digit (pySlice (normalizeId c0) 0 8)
            = pySlice (normalizeId c0) 8 9
        · rw [if_neg (fun hx => hx hcd), if_pos hcd]
        · rw [if_pos hcd, if_neg hcd]
      · rw [if_pos (by omega), if_neg h9, if_neg (by simp [hemp])]

/-- Day alternatives of `_REGEXP_DATE_DDMMYYYY`: `0[1-9]|[12]\d|3[01]`. -/
def dayOk (a b : Char) : Bool :=
  (a == '0' && ('1' ≤ b && b ≤ '9'))
    || ((a == '1' || a == '2') && isPyDigit b)
    || (a == '3' && (b == '0' || b == '1'))

/-- Month alternatives of `_REGEXP_DATE_DDMMYYYY`: `0[1-9]|1[0-2]`. -/
def monthOk (a b : Char) : Bool :=
  (a == '0' && ('1' ≤ b && b ≤ '9'))
    || (a == '1' && (b == '0' || b == '1' || b == '2'))

/-- `_REGEXP_DATE_DDMMYYYY.match(...)`: an (unanchored-at-the-end)
prefix match of `(?:0[1-9]|[12]\d|3[01])/(?:0[1-9]|1[0-2])/\d{4}`;
characters after the four year digits are unconstrained because
`re.match` only anchors at the start. -/
def matchesDdMmYyyy (l : List Char) : Bool :=
  match l with
  | d1 :: d2 :: '/' :: m1 :: m2 :: '/' :: y1 :: y2 :: y3 :: y4 :: _ =>
    dayOk d1 d2 && monthOk m1 m2
      && (isPyDigit y1 && isPyDigit y2 && isPyDigit y3 && isPyDigit y4)
  | _ => false

/-- The per-date validation of the candidate filter: a present date that
does not prefix-match DD/MM/YYYY (on its stripped form) is nulled; a
matching one is kept verbatim (unstripped). -/
def validate_date : Option String → Option String
  | none => none
  | some s => if matchesDdMmYyyy (pyStrip s.toList) then some s else none

/-- The ISIN branch of the candidate filter (the `if fund.isin is not
None:` block).  The outer `none` means the whole record is skipped (the
source `continue` on a non-US ISIN); `some v` means processing continues
with `v` as the new isin value. -/
def isin_step : Option String → Option (Option String)
  | none => some none
  | some s0 =>
    let n := normalizeId s0
    if !n.isEmpty then
      if !n.startsWith "US" then none
      else if n.length = 11 then some (some (n ++ isin_check_digit n))
      else if n.length ≠ 12 then some (none : Option String)
      else if isin_check_digit (pySlice n 0 11) ≠ pySlice n 11 12 then some (none : Option String)
      else some (some n)
    else some (some n)

/-- One record of `sheet_to_fund_info` *after* the errata merge: the
data checks/cleanups from the cusip block to the final `to_date` test.
`none` means the record is dropped (`continue`), `some f` that `f` is
yielded. -/
def filter_merged_record (f : FundInfo) : Option FundInfo :=
  let f1 := { f with cusip := normalize_cusip f.cusip }
  match isin_step f1.isin with
  | none => none
  | some newIsin =>
    let f2 := { f1 with isin := newIsin }
    if !truthyOS f2.isin && !truthyOS f2.cusip then none
    else
      let f3 := { f2 with from_date := validate_date f2.from_date,
                          to_date := validate_date f2.to_date }
      if truthyOS f3.to_date then none else some f3

/-- The whole per-record processing of `sheet_to_fund_info`: apply a
matching erratum, then filter. -/
def filter_fund_record (errata : List (String × FundInfo)) (f : FundInfo) : Option FundInfo :=
  let merged := match f.share_class_ref with
    | some r =>
      match (errata.find? fun p => p.1 == r) with
      | some p => merge_fundinfos f p.2
      | none => f
    | none => f
  filter_merged_record merged

/-- Concrete record for the C5 counterexample: a populated (non-blank)
`to_date` that fails the DD/MM/YYYY validation. -/
def c5fund : FundInfo where
  share_class_ref := some "REF1"
  family := some "Acme Group"
  fund_name := some "Acme Growth Fund"
  isin := none
  cusip := some "037833100"
  from_date := none
  to_date := some "banana"

/-- A populated (non-blank) optional string: present with at least one
non-whitespace character. -/
def nonBlankOS : Option String → Bool
  | none => false
  | some s => !(pyStrip s.toList).isEmpty

/-- **C5 — counterexample.** A record whose `to_date` is populated and
non-blank (`"banana"`) but fails the DD/MM/YYYY validation is *not*
dropped: the validation nulls the field first and the record is
yielded. -/
theorem claim_C5_counterexample :
    nonBlankOS c5fund.to_date = true ∧ filter_merged_record c5fund ≠ none := by
  refine ⟨by decide, by decide⟩

theorem matchesDdMmYyyy_ne_nil {l : List Char} (h : matchesDdMmYyyy l = true) :
    l ≠ [] := by
  intro hl
  subst hl
  simp [matchesDdMmYyyy] at h

theorem truthyOS_of_match {s : String} (h : matchesDdMmYyyy (pyStrip s.toList) = true) :
    truthyOS (some s) = true := by
  have hne : s.toList ≠ [] := by
    intro h0
    rw [h0] at h
    exact absurd h (by decide)
  cases hs : s with
  | mk data =>
    cases data with
    | nil => rw [hs] at hne; simp at hne
    | cons a l =>
      simp only [truthyOS, String.isEmpty, String.endPos, String.utf8ByteSize,
        Bool.not_eq_true', beq_eq_false_iff_ne, ne_eq]
      intro hq
      have hb := congrArg String.Pos.byteIdx hq
      have h1 := Char.utf8Size_pos a
      have hb2 : String.utf8Len l + a.utf8Size = 0 := hb
      omega

/-- **C5 — amended.** If a record's `to_date` is populated *and*
(stripped) prefix-matches the DD/MM/YYYY pattern, the record is dropped
by the candidate filter; a populated `to_date` failing the validation is
instead nulled and the record may be yielded. -/
theorem claim_C5_amended (f : FundInfo) (s : String) (hs : f.to_date = some s)
    (hv : matchesDdMmYyyy (pyStrip s.toList) = true) :
    filter_merged_record f = none := by
  simp only [filter_merged_record]
  split
  · rfl
  · split
    · rfl
    · have hval : validate_date f.to_date = some s := by
        rw [hs]
        simp only [validate_date, hv, if_true]
      simp only [hval]
      rw [if_pos (truthyOS_of_match hv)]

/-- Witness for `claim_C5_amended`: a record with the valid populated
ceased-date `"01/01/2020"` is dropped. -/
theorem claim_C5_witness :
    ({ c5fund with to_date := some "01/01/2020" } : FundInfo).to_date = some "01/01/2020"
      ∧ matchesDdMmYyyy (pyStrip "01/01/2020".toList) = true
      ∧ filter_merged_record { c5fund with to_date := some "01/01/2020" } = none :=
  ⟨rfl, by decide,
    claim_C5_amended { c5fund with to_date := some "01/01/2020" } "01/01/2020" rfl (by decide)⟩

/-! ## Remote caller: best-match selection (`call-openfigi.py`,
`get_best_openfigi_result`) -/

/-- One candidate inside a job response's `data` array; each field is
the corresponding `.get(key, None)`. -/
structure FigiResult where
  ticker : Option String
  fund_name : Option String := none
  figi : Option String := none
  exchCode : Option String := none
deriving DecidableEq, Repr

/-- `exch_code == 'US'`. -/
def isUSResult (r : FigiResult) : Bool := r.exchCode == some "US"

/-- `exch_code in ('UA','UN','UP','UR')`. -/
def isFallbackResult (r : FigiResult) : Bool :=
  r.exchCode == some "UA" || r.exchCode == some "UN"
    || r.exchCode == some "UP" || r.exchCode == some "UR"

/-- The `for result in all_results` loop of `get_best_openfigi_result`,
with `best` the `best_result` accumulator. -/
def get_best_go : List FigiResult → Option FigiResult → Option FigiResult
  | [], best => best
  | r :: rest, best =>
    if isUSResult r then some r
    else if best = none ∧ isFallbackResult r then get_best_go rest (some r)
    else get_best_go rest best

/-- `get_best_openfigi_result(job_response)`: iterate over
`job_response.get('data', [])`; return immediately on exchange code
`"US"`, otherwise remember the first candidate on UA/UN/UP/UR as a
fallback. A job response is `none` when the `data` key is absent. -/
def get_best_openfigi_result (resp : Option (List FigiResult)) : Option FigiResult :=
  get_best_go (resp.getD []) none

theorem get_best_go_some (l : List FigiResult) (b : FigiResult) :
    get_best_go l (some b)
      = match l.find? isUSResult with
        | some r => some r
        | none => some b := by
  induction l with
  | nil => simp [get_best_go]
  | cons r rest ih =>
    by_cases hus : isUSResult r = true
    · rw [List.find?_cons_of_pos _ hus]
      simp [get_best_go, hus]
    · rw [List.find?_cons_of_neg _ hus]
      have hstep : get_best_go (r :: rest) (some b) = get_best_go rest (some b) := by
        simp [get_best_go, hus]
      rw [hstep]
      exact ih

theorem get_best_go_none (l : List FigiResult) :
    get_best_go l none
      = match l.find? isUSResult with
        | some r => some r
        | none => l.find? isFallbackResult := by
  induction l with
  | nil => simp [get_best_go]
  | cons r rest ih =>
    by_cases hus : isUSResult r = true
    · rw [List.find?_cons_of_pos _ hus]
      simp [get_best_go, hus]
    · rw [List.find?_cons_of_neg _ hus]
      by_cases hfb : isFallbackResult r = true
      · rw [List.find?_cons_of_pos _ hfb]
        have hstep : get_best_go (r :: rest) none = get_best_go rest (some r) := by
          simp [get_best_go, hus, hfb]
        rw [hstep]
        exact get_best_go_some rest r
      · rw [List.find?_cons_of_neg _ hfb]
        have hstep : get_best_go (r :: rest) none = get_best_go rest none := by
          simp [get_best_go, hus, hfb]
        rw [hstep]
        exact ih

/-- **C6.** For every job response, `get_best_openfigi_result` returns
the first candidate whose exchange code is `"US"` when one exists,
otherwise the first candidate whose exchange code is one of
UA/UN/UP/UR, otherwise `none`; in particular an empty candidate list
gives `none`. -/
theorem claim_C6_best_match :
    (∀ resp : Option (List FigiResult),
        get_best_openfigi_result resp
          = match (resp.getD []).find? isUSResult with
            | some r => some r
            | none => (resp.getD []).find? isFallbackResult)
      ∧ get_best_openfigi_result (some []) = none
      ∧ get_best_openfigi_result none = none := by
  refine ⟨fun resp => ?_, rfl, rfl⟩
  exact get_best_go_none (resp.getD [])

/-! ## Remote caller: batching (`call-openfigi.py`, `group_into_sublists`) -/

/-- The chunking loop of `group_into_sublists` with an explicit fuel
argument. -/
def group_go {α : Type} : Nat → List α → Nat → List (List α)
  | _, [], _ => []
  | 0, _ :: _, _ => []
  | fuel + 1, a :: rest, n =>
    ((a :: rest).take n) :: group_go fuel ((a :: rest).drop n) n

/-- `group_into_sublists(it, n)`: consecutive chunks of at most `n`
items, the last one possibly smaller, produced by the take/drop loop
`group_go` whose explicit fuel (the input length, never exhausted for
`n ≥ 1`) makes the recursion structural and kernel-evaluable.  For
`n = 0` the source generator loops forever yielding empty tuples
without consuming input; the model returns `[]` there and every theorem
about it assumes `1 ≤ n`. -/
def group_into_sublists {α : Type} (l : List α) (n : Nat) : List (List α) :=
  if n = 0 then [] else group_go l.length l n

theorem group_go_flatten {α : Type} (n : Nat) (hn : 1 ≤ n) :
    ∀ (fuel : Nat) (l : List α), l.length ≤ fuel → (group_go fuel l n).flatten = l := by
  intro fuel
  induction fuel with
  | zero =>
    intro l hl
    have h0 : l = [] := by
      cases l with
      | nil => rfl
      | cons a rest => simp at hl
    subst h0
    simp [group_go]
  | succ N ih =>
    intro l hl
    cases l with
    | nil => simp [group_go]
    | cons a rest =>
      rw [show group_go (N + 1) (a :: rest) n
          = ((a :: rest).take n) :: group_go N ((a :: rest).drop n) n from rfl]
      rw [List.flatten_cons]
      have hlen2 : ((a :: rest).drop n).length ≤ N := by
        simp only [List.length_drop, List.length_cons]
        simp only [List.length_cons] at hl
        omega
      rw [ih _ hlen2]
      exact List.take_append_drop n (a :: rest)

theorem group_into_sublists_flatten {α : Type} (n : Nat) (hn : 1 ≤ n) :
    ∀ l : List α, (group_into_sublists l n).flatten = l := by
  intro l
  unfold group_into_sublists
  rw [if_neg (by omega)]
  exact group_go_flatten n hn l.length l (le_refl _)

/-- **C10.** For every finite input sequence and every batch size
`n ≥ 1`, concatenating the chunks yielded by `group_into_sublists`
reproduces exactly the input, in order — nothing is dropped,
duplicated, or reordered. -/
theorem claim_C10_group_concat {α : Type} (l : List α) (n : Nat) (hn : 1 ≤ n) :
    (group_into_sublists l n).flatten = l :=
  group_into_sublists_flatten n hn l

/-- Witness for `claim_C10_group_concat` with five items and batch
size 2 (chunks `[1,2]`, `[3,4]`, `[5]`). -/
theorem claim_C10_witness :
    1 ≤ 2 ∧ (group_into_sublists [1, 2, 3, 4, 5] 2).flatten = [1, 2, 3, 4, 5] :=
  ⟨by decide, claim_C10_group_concat [1, 2, 3, 4, 5] 2 (by decide)⟩

/-! ## Identifier cache (`call-openfigi.py`)

A Python `dict` keyed by 9-character CUSIP-equivalent strings, modelled
as an insertion-ordered association list where an update overwrites an
existing key in place (`cacheInsert`) and `cacheUnion` is `cache |= d`. -/

abbrev Cache : Type := List (String × TickerInfo)

def cacheLookup : Cache → String → Option TickerInfo
  | [], _ => none
  | (k', v) :: rest, k => if k' == k then some v else cacheLookup rest k

def cacheInsert : Cache → String → TickerInfo → Cache
  | [], k, v => [(k, v)]
  | (k', v') :: rest, k, v =>
    if k' == k then (k, v) :: rest else (k', v') :: cacheInsert rest k v

/-- `m |= d`: fold the entries of `d` into `m`, overwriting in place. -/
def cacheUnion (m : Cache) (d : Cache) : Cache :=
  d.foldl (fun acc p => cacheInsert acc p.1 p.2) m

/-- `k in cache and cache[k].ticker` — the key is present with a truthy
ticker. -/
def tickerKnown (m : Cache) (k : String) : Bool :=
  match cacheLookup m k with
  | some ti => truthyOS ti.ticker
  | none => false

theorem cacheLookup_insert (m : Cache) (k k' : String) (v : TickerInfo) :
    cacheLookup (cacheInsert m k v) k'
      = if k' = k then some v else cacheLookup m k' := by
  induction m with
  | nil =>
    simp only [cacheInsert, cacheLookup, beq_iff_eq]
    by_cases h : k = k'
    · simp [h]
    · rw [if_neg h, if_neg (fun hh : k' = k => h hh.symm)]
  | cons p rest ih =>
    obtain ⟨k0, v0⟩ := p
    simp only [cacheInsert, beq_iff_eq]
    by_cases h0 : k0 = k
    · subst h0
      rw [if_pos rfl]
      simp only [cacheLookup, beq_iff_eq]
      by_cases h : k0 = k'
      · simp [h]
      · rw [if_neg h, if_neg h, if_neg (fun hh : k' = k0 => h hh.symm)]
    · rw [if_neg h0]
      simp only [cacheLookup, beq_iff_eq, ih]
      by_cases h' : k0 = k'
      · subst h'
        rw [if_pos rfl, if_neg (fun hh : k0 = k => h0 hh), if_pos rfl]
      · simp [h']

theorem cacheUnion_nil_left (d : Cache) : cacheUnion [] d = cacheUnion [] d := rfl

theorem cacheUnion_cons (m : Cache) (p : String × TickerInfo) (d : Cache) :
    cacheUnion m (p :: d) = cacheUnion (cacheInsert m p.1 p.2) d := rfl

theorem cacheLookup_union_of_not_mem (m d : Cache) (k : String)
    (h : k ∉ d.map Prod.fst) :
    cacheLookup (cacheUnion m d) k = cacheLookup m k := by
  induction d generalizing m with
  | nil => rfl
  | cons p rest ih =>
    rw [cacheUnion_cons]
    have hk : k ≠ p.1 := by
      intro hk
      exact h (by simp [hk])
    rw [ih _ (fun hm => h (by simp [hm]))]
    rw [cacheLookup_insert, if_neg hk]

theorem cacheLookup_union_of_mem (m d : Cache) (k : String)
    (h : k ∈ d.map Prod.fst) :
    ∃ p ∈ d, p.1 = k ∧ cacheLookup (cacheUnion m d) k = some p.2 := by
  induction d generalizing m with
  | nil => simp at h
  | cons p rest ih =>
    rw [cacheUnion_cons]
    by_cases hr : k ∈ rest.map Prod.fst
    · obtain ⟨q, hq, hqk, hql⟩ := ih (cacheInsert m p.1 p.2) hr
      exact ⟨q, List.mem_cons_of_mem p hq, hqk, hql⟩
    · have hk : k = p.1 := by
        rcases List.mem_map.1 h with ⟨q, hq, hqk⟩
        rcases List.mem_cons.1 hq with hq | hq
        · rw [← hqk, hq]
        · exact absurd (List.mem_map_of_mem Prod.fst hq) (hqk ▸ hr)
      refine ⟨p, List.mem_cons_self p rest, hk.symm, ?_⟩
      rw [cacheLookup_union_of_not_mem _ _ _ hr, cacheLookup_insert, if_pos hk]

/-- A lookup in a union resolves either inside `d` or inside `m`. -/
theorem cacheLookup_union_cases (m d : Cache) (k : String) (v : TickerInfo)
    (h : cacheLookup (cacheUnion m d) k = some v) :
    (∃ p ∈ d, p.1 = k ∧ p.2 = v) ∨ cacheLookup m k = some v := by
  by_cases hd : k ∈ d.map Prod.fst
  · obtain ⟨p, hp, hpk, hpl⟩ := cacheLookup_union_of_mem m d k hd
    rw [hpl] at h
    exact Or.inl ⟨p, hp, hpk, Option.some_injective _ h⟩
  · rw [cacheLookup_union_of_not_mem m d k hd] at h
    exact Or.inr h

theorem tickerKnown_union_of_not_mem (m d : Cache) (k : String)
    (h : k ∉ d.map Prod.fst) :
    tickerKnown (cacheUnion m d) k = tickerKnown m k := by
  unfold tickerKnown
  rw [cacheLookup_union_of_not_mem m d k h]

theorem tickerKnown_union_of_mem (m d : Cache) (k : String)
    (hd : ∀ p ∈ d, truthyOS p.2.ticker = true) (h : k ∈ d.map Prod.fst) :
    tickerKnown (cacheUnion m d) k = true := by
  obtain ⟨p, hp, hpk, hpl⟩ := cacheLookup_union_of_mem m d k h
  unfold tickerKnown
  rw [hpl]
  exact hd p hp

theorem tickerKnown_union_mono (m d : Cache) (k : String)
    (hd : ∀ p ∈ d, truthyOS p.2.ticker = true) (h : tickerKnown m k = true) :
    tickerKnown (cacheUnion m d) k = true := by
  by_cases hmem : k ∈ d.map Prod.fst
  · exact tickerKnown_union_of_mem m d k hd hmem
  · rw [tickerKnown_union_of_not_mem m d k hmem]
    exact h

/-! ## Query Planner (`call-openfigi.py`, the four generator passes)

All four generators have the same shape: for each fund, compute an
optional pair of a *dedup key* (checked against the cache and added to
the shared `queried` set) and a *yielded identifier*; yield when the key
is neither resolved in the cache nor already queried.  `plan_pass`
returns the `(key, identifier)` pairs together with the final `queried`
set; the source functions yield only the identifiers
(`.map Prod.snd`). -/

def plan_pass (sel : FundInfo → Option (String × String)) :
    List FundInfo → Cache → List String → List (String × String) × List String
  | [], _, queried => ([], queried)
  | f :: rest, cache, queried =>
    match sel f with
    | none => plan_pass sel rest cache queried
    | some (key, idval) =>
      if !tickerKnown cache key && !queried.contains key then
        let r := plan_pass sel rest cache (key :: queried)
        ((key, idval) :: r.1, r.2)
      else plan_pass sel rest cache queried

/-- Pass 1 (`isins_from_sheet_for_funds`): for funds with a truthy
`isin`, the dedup key is `isin[2:11]` and the yielded value the ISIN. -/
def sel_isin_from_sheet (f : FundInfo) : Option (String × String) :=
  match f.isin with
  | some i => if !i.isEmpty then some (pySlice i 2 11, i) else none
  | none => none

/-- Pass 2 (`cusips_from_sheet_for_funds`): for funds with a truthy
`cusip`, key and yielded value are the CUSIP itself. -/
def sel_cusip_from_sheet (f : FundInfo) : Option (String × String) :=
  match f.cusip with
  | some c => if !c.isEmpty then some (c, c) else none
  | none => none

/-- Pass 3 (`isins_from_cusips_for_funds`): for funds with a truthy
`cusip`, the dedup key is the CUSIP and the yielded value the ISIN
synthesized from it. -/
def sel_isin_from_cusip (f : FundInfo) : Option (String × String) :=
  match f.cusip with
  | some c => if !c.isEmpty then some (c, make_isin_from_cusip c) else none
  | none => none

/-- Pass 4 (`cusips_from_isins_for_funds`): for funds with a truthy
`isin`, key and yielded value are `isin[2:11]`. -/
def sel_cusip_from_isin (f : FundInfo) : Option (String × String) :=
  match f.isin with
  | some i => if !i.isEmpty then some (pySlice i 2 11, pySlice i 2 11) else none
  | none => none

def isins_from_sheet_for_funds (funds : List FundInfo) (cache : Cache)
    (queried : List String) : List String × List String :=
  let r := plan_pass sel_isin_from_sheet funds cache queried
  (r.1.map Prod.snd, r.2)

def cusips_from_sheet_for_funds (funds : List FundInfo) (cache : Cache)
    (queried : List String) : List String × List String :=
  let r := plan_pass sel_cusip_from_sheet funds cache queried
  (r.1.map Prod.snd, r.2)

def isins_from_cusips_for_funds (funds : List FundInfo) (cache : Cache)
    (queried : List String) : List String × List String :=
  let r := plan_pass sel_isin_from_cusip funds cache queried
  (r.1.map Prod.snd, r.2)

def cusips_from_isins_for_funds (funds : List FundInfo) (cache : Cache)
    (queried : List String) : List String × List String :=
  let r := plan_pass sel_cusip_from_isin funds cache queried
  (r.1.map Prod.snd, r.2)

/-! ## Batched remote caller (`call-openfigi.py`, `call_openfigi_stage`
and `get_openfigi_results`) -/

/-- One outbound mapping job (`{"idType": ..., "idValue": ...,
"securityType": "ETP"}`). -/
structure OpenfigiJob where
  idType : String
  idValue : String
  securityType : String := "ETP"
deriving DecidableEq, Repr

def isin_to_openfigi_job (isin : String) : OpenfigiJob :=
  { idType := "ID_ISIN", idValue := isin }

def cusip_to_openfigi_job (cusip : String) : OpenfigiJob :=
  { idType := "ID_CUSIP", idValue := cusip }

/-- `openfigi_result_as_tickerinfo(cusip, openfigi_result)`: build a
TickerInfo from the best result (every field `None` when the result is
`None`). -/
def openfigi_result_as_tickerinfo (cusip : String) (r : Option FigiResult) : TickerInfo :=
  { cusip := cusip
    ticker := r.bind FigiResult.ticker
    fund_name := r.bind FigiResult.fund_name
    figi := r.bind FigiResult.figi
    exchange := r.bind FigiResult.exchCode }

/-- `call_openfigi_stage`: group the jobs into batches of at most
`jobs_per_call`, call the endpoint per batch, flatten the per-job
responses back, select the best result per job, and build the
CUSIP→TickerInfo dictionary.  The network is abstracted by `oracle`
(one job response per job, positionally aligned, per the protocol);
`rate_limit` and the progress iterator only affect timing/logging and
yield the sequence unchanged, so they vanish in the embedding. -/
def call_openfigi_stage (ids : List String) (id_to_cusip : String → String)
    (id_to_job : String → OpenfigiJob)
    (oracle : OpenfigiJob → Option (List FigiResult)) (jobs_per_call : Nat) : Cache :=
  if ids.isEmpty then []
  else
    let grouped := group_into_sublists (ids.map id_to_job) jobs_per_call
    let responses := (grouped.map fun g => g.map oracle).flatten
    let results := responses.map get_best_openfigi_result
    let cusips := ids.map id_to_cusip
    let tickerinfos := (cusips.zip results).map fun p => openfigi_result_as_tickerinfo p.1 p.2
    cacheUnion [] (cusips.zip tickerinfos)

/-- The trace of one `get_openfigi_results` run: the `(key, id)` pairs
each pass yielded and the cache after each of the four `cache |=`
updates. -/
structure OpenfigiRun where
  pairs1 : List (String × String)
  pairs2 : List (String × String)
  pairs3 : List (String × String)
  pairs4 : List (String × String)
  cache1 : Cache
  cache2 : Cache
  cache3 : Cache
  cache4 : Cache
deriving Repr

/-! The body of `get_openfigi_results` after the cache is loaded: the
two dedup sets start as the cache's key set (`run_q0`), and the four
passes run strictly in order, each consuming the cache updated by its
predecessors.  The `run_*` definitions name the successive values of
the source's local variables so theorems can speak about each stage. -/

/-- `set(cache.keys())`, the initial value of both dedup sets. -/
def run_q0 (cache0 : Cache) : List String := cache0.map Prod.fst

/-- Pass 1 over the candidate set (ISINs from the sheet). -/
def run_r1 (funds : List FundInfo) (cache0 : Cache) : List (String × String) × List String :=
  plan_pass sel_isin_from_sheet funds cache0 (run_q0 cache0)

/-- The dictionary produced by querying pass 1's ISINs. -/
def run_d1 (funds : List FundInfo) (cache0 : Cache)
    (oracle : OpenfigiJob → Option (List FigiResult)) (jp : Nat) : Cache :=
  call_openfigi_stage ((run_r1 funds cache0).1.map Prod.snd)
    (fun x => pySlice x 2 11) isin_to_openfigi_job oracle jp

/-- The cache after the first `cache |=`. -/
def run_c1 (funds : List FundInfo) (cache0 : Cache)
    (oracle : OpenfigiJob → Option (List FigiResult)) (jp : Nat) : Cache :=
  cacheUnion cache0 (run_d1 funds cache0 oracle jp)

/-- Pass 2 (CUSIPs from the sheet), consulting the updated cache. -/
def run_r2 (funds : List FundInfo) (cache0 : Cache)
    (oracle : OpenfigiJob → Option (List FigiResult)) (jp : Nat) :
    List (String × String) × List String :=
  plan_pass sel_cusip_from_sheet funds (run_c1 funds cache0 oracle jp) (run_q0 cache0)

def run_d2 (funds : List FundInfo) (cache0 : Cache)
    (oracle : OpenfigiJob → Option (List FigiResult)) (jp : Nat) : Cache :=
  call_openfigi_stage ((run_r2 funds cache0 oracle jp).1.map Prod.snd)
    (fun x => x) cusip_to_openfigi_job oracle jp

def run_c2 (funds : List FundInfo) (cache0 : Cache)
    (oracle : OpenfigiJob → Option (List FigiResult)) (jp : Nat) : Cache :=
  cacheUnion (run_c1 funds cache0 oracle jp) (run_d2 funds cache0 oracle jp)

/-- Pass 3 (CUSIP-derived ISINs), sharing pass 1's dedup set. -/
def run_r3 (funds : List FundInfo) (cache0 : Cache)
    (oracle : OpenfigiJob → Option (List FigiResult)) (jp : Nat) :
    List (String × String) × List String :=
  plan_pass sel_isin_from_cusip funds (run_c2 funds cache0 oracle jp)
    (run_r1 funds cache0).2

def run_d3 (funds : List FundInfo) (cache0 : Cache)
    (oracle : OpenfigiJob → Option (List FigiResult)) (jp : Nat) : Cache :=
  call_openfigi_stage ((run_r3 funds cache0 oracle jp).1.map Prod.snd)
    (fun x => pySlice x 2 11) isin_to_openfigi_job oracle jp

def run_c3 (funds : List FundInfo) (cache0 : Cache)
    (oracle : OpenfigiJob → Option (List FigiResult)) (jp : Nat) : Cache :=
  cacheUnion (run_c2 funds cache0 oracle jp) (run_d3 funds cache0 oracle jp)

/-- Pass 4 (ISIN-derived CUSIPs), sharing pass 2's dedup set. -/
def run_r4 (funds : List FundInfo) (cache0 : Cache)
    (oracle : OpenfigiJob → Option (List FigiResult)) (jp : Nat) :
    List (String × String) × List String :=
  plan_pass sel_cusip_from_isin funds (run_c3 funds cache0 oracle jp)
    (run_r2 funds cache0 oracle jp).2

def run_d4 (funds : List FundInfo) (cache0 : Cache)
    (oracle : OpenfigiJob → Option (List FigiResult)) (jp : Nat) : Cache :=
  call_openfigi_stage ((run_r4 funds cache0 oracle jp).1.map Prod.snd)
    (fun x => x) cusip_to_openfigi_job oracle jp

def run_c4 (funds : List FundInfo) (cache0 : Cache)
    (oracle : OpenfigiJob → Option (List FigiResult)) (jp : Nat) : Cache :=
  cacheUnion (run_c3 funds cache0 oracle jp) (run_d4 funds cache0 oracle jp)

def openfigi_run (funds : List FundInfo) (cache0 : Cache)
    (oracle : OpenfigiJob → Option (List FigiResult)) (jp : Nat) : OpenfigiRun :=
  { pairs1 := (run_r1 funds cache0).1
    pairs2 := (run_r2 funds cache0 oracle jp).1
    pairs3 := (run_r3 funds cache0 oracle jp).1
    pairs4 := (run_r4 funds cache0 oracle jp).1
    cache1 := run_c1 funds cache0 oracle jp
    cache2 := run_c2 funds cache0 oracle jp
    cache3 := run_c3 funds cache0 oracle jp
    cache4 := run_c4 funds cache0 oracle jp }

/-- Python `x or y` on an optional count (`None` and `0` are falsy). -/
def orDefaultNat : Option Nat → Nat → Nat
  | none, d => d
  | some n, d => if n = 0 then d else n

/-- `get_openfigi_results` (cache already loaded from disk into
`cache0`): resolve the jobs-per-call limit from the optional argument
and the API-key defaults, run the four passes, and return the final
cache. -/
def get_openfigi_results (funds : List FundInfo) (cache0 : Cache)
    (oracle : OpenfigiJob → Option (List FigiResult))
    (openfigi_jobs_per_call : Option Nat) (openfigi_api_key : Option String) : Cache :=
  let jp := orDefaultNat openfigi_jobs_per_call (if truthyOS openfigi_api_key then 100 else 10)
  (openfigi_run funds cache0 oracle jp).cache4

/-- The 9-character CUSIP-equivalent keys the four passes store, in
order: `id_to_cusip` of each yielded identifier (slice for the ISIN
passes, identity for the CUSIP passes). -/
def planned_keys (r : OpenfigiRun) : List String :=
  r.pairs1.map (fun p => pySlice p.2 2 11) ++ r.pairs2.map Prod.snd
    ++ r.pairs3.map (fun p => pySlice p.2 2 11) ++ r.pairs4.map Prod.snd

/-! ### Counterexample scenario for C2/C3: a fund carrying both
identifiers of the same instrument, with an ISIN query that resolves no
ticker and a CUSIP query that does. -/

/-- A candidate whose `isin` and `cusip` point at the same instrument
(ISIN positions 2–11 equal the CUSIP). -/
def c2fund : FundInfo where
  share_class_ref := some "REF2"
  family := some "Fam"
  fund_name := some "Fund"
  isin := some "US0378331005"
  cusip := some "037833100"
  from_date := none
  to_date := none

/-- A remote endpoint that finds nothing for ISIN queries but resolves
CUSIP queries to a US-exchange ticker. -/
def c2oracle : OpenfigiJob → Option (List FigiResult) :=
  fun j => if j.idType == "ID_CUSIP"
    then some [{ ticker := some "AAPL", fund_name := some "Apple Inc"
                 figi := some "BBG000B9XRY4", exchCode := some "US" }]
    else some []

/-- **C2 — counterexample.** With an empty pre-existing cache and the
single candidate `c2fund`, the ISIN pass queries key `"037833100"`;
the query stores no ticker, so the CUSIP pass (whose dedup set is
separate) queries the *same* key again: the four passes yield the key
twice. -/
theorem claim_C2_counterexample :
    planned_keys (openfigi_run [c2fund] [] c2oracle 10)
        = ["037833100", "037833100"]
      ∧ ¬ (planned_keys (openfigi_run [c2fund] [] c2oracle 10)).Nodup := by
  refine ⟨by decide, by decide⟩

/-- **C3 — counterexample.** In the same scenario the cache entry under
`"037833100"` is written by pass 1 with a null ticker and then
*overwritten* by pass 2's result (`cache |=` replaces it), so an entry
present in the cache is changed by a later update within the run. -/
theorem claim_C3_counterexample :
    cacheLookup (openfigi_run [c2fund] [] c2oracle 10).cache1 "037833100"
        = some { ticker := none, cusip := "037833100" }
      ∧ cacheLookup (openfigi_run [c2fund] [] c2oracle 10).cache2 "037833100"
        = some { ticker := some "AAPL", cusip := "037833100"
                 fund_name := some "Apple Inc", figi := some "BBG000B9XRY4"
                 exchange := some "US" }
      ∧ cacheLookup (openfigi_run [c2fund] [] c2oracle 10).cache1 "037833100"
        ≠ cacheLookup (openfigi_run [c2fund] [] c2oracle 10).cache2 "037833100" := by
  refine ⟨by decide, by decide, by decide⟩

/-! ### Generic facts about a planner pass -/

theorem plan_pass_nil (sel : FundInfo → Option (String × String)) (c : Cache)
    (q : List String) : plan_pass sel [] c q = ([], q) := rfl

theorem plan_pass_cons_none {sel : FundInfo → Option (String × String)} {f : FundInfo}
    (hsel : sel f = none) (rest : List FundInfo) (c : Cache) (q : List String) :
    plan_pass sel (f :: rest) c q = plan_pass sel rest c q := by
  simp [plan_pass, hsel]

theorem plan_pass_cons_yield {sel : FundInfo → Option (String × String)} {f : FundInfo}
    {k y : String} (hsel : sel f = some (k, y)) (rest : List FundInfo) (c : Cache)
    (q : List String) (hcond : (!tickerKnown c k && !q.contains k) = true) :
    plan_pass sel (f :: rest) c q
      = ((k, y) :: (plan_pass sel rest c (k :: q)).1,
          (plan_pass sel rest c (k :: q)).2) := by
  simp only [plan_pass, hsel]
  rw [if_pos hcond]

theorem plan_pass_cons_skip {sel : FundInfo → Option (String × String)} {f : FundInfo}
    {k y : String} (hsel : sel f = some (k, y)) (rest : List FundInfo) (c : Cache)
    (q : List String) (hcond : ¬ (!tickerKnown c k && !q.contains k) = true) :
    plan_pass sel (f :: rest) c q = plan_pass sel rest c q := by
  simp only [plan_pass, hsel, if_neg hcond]

theorem plan_cond_iff (c : Cache) (k : String) (q : List String) :
    (!tickerKnown c k && !q.contains k) = true
      ↔ tickerKnown c k = false ∧ k ∉ q := by
  simp

/-- Every element of the initial `queried` set is still in the final
one. -/
theorem plan_pass_queried_mono (sel : FundInfo → Option (String × String))
    (fs : List FundInfo) (c : Cache) :
    ∀ (q : List String) (x : String), x ∈ q → x ∈ (plan_pass sel fs c q).2 := by
  induction fs with
  | nil =>
    intro q x hx
    simpa [plan_pass_nil] using hx
  | cons f rest ih =>
    intro q x hx
    cases hsel : sel f with
    | none =>
      rw [plan_pass_cons_none hsel]
      exact ih q x hx
    | some ky =>
      obtain ⟨k, y⟩ := ky
      by_cases hcond : (!tickerKnown c k && !q.contains k) = true
      · rw [plan_pass_cons_yield hsel rest c q hcond]
        exact ih (k :: q) x (List.mem_cons_of_mem k hx)
      · rw [plan_pass_cons_skip hsel rest c q hcond]
        exact ih q x hx

/-- Every yielded pair originates from some fund, was unresolved in the
cache, and its key was not yet queried. -/
theorem plan_pass_pairs_mem (sel : FundInfo → Option (String × String))
    (fs : List FundInfo) (c : Cache) :
    ∀ (q : List String), ∀ ky ∈ (plan_pass sel fs c q).1,
      (∃ f ∈ fs, sel f = some ky) ∧ tickerKnown c ky.1 = false ∧ ky.1 ∉ q := by
  induction fs with
  | nil =>
    intro q ky hky
    simp [plan_pass_nil] at hky
  | cons f rest ih =>
    intro q ky hky
    cases hsel : sel f with
    | none =>
      rw [plan_pass_cons_none hsel] at hky
      obtain ⟨⟨g, hg, hgk⟩, hrest⟩ := ih q ky hky
      exact ⟨⟨g, List.mem_cons_of_mem f hg, hgk⟩, hrest⟩
    | some ky0 =>
      obtain ⟨k, y⟩ := ky0
      by_cases hcond : (!tickerKnown c k && !q.contains k) = true
      · rw [plan_pass_cons_yield hsel rest c q hcond] at hky
        rcases List.mem_cons.1 hky with hky | hky
        · subst hky
          obtain ⟨htk, hq⟩ := (plan_cond_iff c k q).1 hcond
          exact ⟨⟨f, List.mem_cons_self f rest, hsel⟩, htk, hq⟩
        · obtain ⟨⟨g, hg, hgk⟩, htk, hq⟩ := ih (k :: q) ky hky
          exact ⟨⟨g, List.mem_cons_of_mem f hg, hgk⟩, htk,
            fun hmem => hq (List.mem_cons_of_mem k hmem)⟩
      · rw [plan_pass_cons_skip hsel rest c q hcond] at hky
        obtain ⟨⟨g, hg, hgk⟩, hrest⟩ := ih q ky hky
        exact ⟨⟨g, List.mem_cons_of_mem f hg, hgk⟩, hrest⟩

/-- The final queried set is the initial one plus the yielded keys. -/
theorem plan_pass_queried_char (sel : FundInfo → Option (String × String))
    (fs : List FundInfo) (c : Cache) :
    ∀ (q : List String) (x : String),
      x ∈ (plan_pass sel fs c q).2
        ↔ x ∈ q ∨ x ∈ (plan_pass sel fs c q).1.map Prod.fst := by
  induction fs with
  | nil =>
    intro q x
    simp [plan_pass_nil]
  | cons f rest ih =>
    intro q x
    cases hsel : sel f with
    | none =>
      rw [plan_pass_cons_none hsel]
      exact ih q x
    | some ky =>
      obtain ⟨k, y⟩ := ky
      by_cases hcond : (!tickerKnown c k && !q.contains k) = true
      · rw [plan_pass_cons_yield hsel rest c q hcond]
        simp only [List.map_cons, List.mem_cons]
        rw [ih (k :: q) x]
        simp only [List.mem_cons]
        tauto
      · rw [plan_pass_cons_skip hsel rest c q hcond]
        exact ih q x

/-- The keys yielded by one pass are pairwise distinct. -/
theorem plan_pass_keys_nodup (sel : FundInfo → Option (String × String))
    (fs : List FundInfo) (c : Cache) :
    ∀ q : List String, ((plan_pass sel fs c q).1.map Prod.fst).Nodup := by
  induction fs with
  | nil =>
    intro q
    simp [plan_pass_nil]
  | cons f rest ih =>
    intro q
    cases hsel : sel f with
    | none =>
      rw [plan_pass_cons_none hsel]
      exact ih q
    | some ky =>
      obtain ⟨k, y⟩ := ky
      by_cases hcond : (!tickerKnown c k && !q.contains k) = true
      · rw [plan_pass_cons_yield hsel rest c q hcond]
        simp only [List.map_cons, List.nodup_cons]
        refine ⟨?_, ih (k :: q)⟩
        intro hmem
        rcases List.mem_map.1 hmem with ⟨p, hp, hpk⟩
        have h3 := (plan_pass_pairs_mem sel rest c (k :: q) p hp).2.2
        exact h3 (hpk ▸ List.mem_cons_self k q)
      · rw [plan_pass_cons_skip hsel rest c q hcond]
        exact ih q

/-- Every fund the selector accepts is accounted for: its key is
yielded, already resolved in the cache, or already queried. -/
theorem plan_pass_cover (sel : FundInfo → Option (String × String))
    (fs : List FundInfo) (c : Cache) :
    ∀ (q : List String), ∀ f ∈ fs, ∀ k y, sel f = some (k, y) →
      k ∈ (plan_pass sel fs c q).1.map Prod.fst
        ∨ tickerKnown c k = true ∨ k ∈ q := by
  induction fs with
  | nil =>
    intro q f hf
    simp at hf
  | cons g rest ih =>
    intro q f hf k y hsel
    cases hgsel : sel g with
    | none =>
      rw [plan_pass_cons_none hgsel]
      rcases List.mem_cons.1 hf with hf | hf
      · subst hf
        rw [hsel] at hgsel
        exact absurd hgsel (by simp)
      · exact ih q f hf k y hsel
    | some ky0 =>
      obtain ⟨k0, y0⟩ := ky0
      by_cases hcond : (!tickerKnown c k0 && !q.contains k0) = true
      · rw [plan_pass_cons_yield hgsel rest c q hcond]
        simp only [List.map_cons, List.mem_cons]
        rcases List.mem_cons.1 hf with hf | hf
        · subst hf
          rw [hsel] at hgsel
          have hinj := Option.some_injective _ hgsel
          have hk : k = k0 := congrArg Prod.fst hinj
          exact Or.inl (Or.inl hk)
        · rcases ih (k0 :: q) f hf k y hsel with h | h | h
          · exact Or.inl (Or.inr h)
          · exact Or.inr (Or.inl h)
          · rcases List.mem_cons.1 h with h | h
            · exact Or.inl (Or.inl h)
            · exact Or.inr (Or.inr h)
      · rw [plan_pass_cons_skip hgsel rest c q hcond]
        rcases List.mem_cons.1 hf with hf | hf
        · subst hf
          rw [hsel] at hgsel
          have hek : k = k0 ∧ y = y0 := by
            have := Option.some_injective _ hgsel
            exact ⟨congrArg Prod.fst this, congrArg Prod.snd this⟩
          rcases hek with ⟨rfl, -⟩
          rw [plan_cond_iff] at hcond
          push_neg at hcond
          by_cases htk : tickerKnown c k = true
          · exact Or.inr (Or.inl htk)
          · have hq : k ∈ q := hcond (by
              cases h : tickerKnown c k
              · rfl
              · exact absurd h htk)
            exact Or.inr (Or.inr hq)
        · exact ih q f hf k y hsel

/-! ### Shape facts about the four selectors -/

theorem sel_isin_from_sheet_none (f : FundInfo) (hi : f.isin = none) :
    sel_isin_from_sheet f = none := by
  unfold sel_isin_from_sheet
  rw [hi]

theorem sel_isin_from_sheet_some (f : FundInfo) {i : String} (hi : f.isin = some i) :
    sel_isin_from_sheet f
      = if (!i.isEmpty) = true then some (pySlice i 2 11, i) else none := by
  unfold sel_isin_from_sheet
  rw [hi]

theorem sel_cusip_from_sheet_none (f : FundInfo) (hc : f.cusip = none) :
    sel_cusip_from_sheet f = none := by
  unfold sel_cusip_from_sheet
  rw [hc]

theorem sel_cusip_from_sheet_some (f : FundInfo) {c : String} (hc : f.cusip = some c) :
    sel_cusip_from_sheet f = if (!c.isEmpty) = true then some (c, c) else none := by
  unfold sel_cusip_from_sheet
  rw [hc]

theorem sel_isin_from_cusip_none (f : FundInfo) (hc : f.cusip = none) :
    sel_isin_from_cusip f = none := by
  unfold sel_isin_from_cusip
  rw [hc]

theorem sel_isin_from_cusip_some (f : FundInfo) {c : String} (hc : f.cusip = some c) :
    sel_isin_from_cusip f
      = if (!c.isEmpty) = true then some (c, make_isin_from_cusip c) else none := by
  unfold sel_isin_from_cusip
  rw [hc]

theorem sel_cusip_from_isin_none (f : FundInfo) (hi : f.isin = none) :
    sel_cusip_from_isin f = none := by
  unfold sel_cusip_from_isin
  rw [hi]

theorem sel_cusip_from_isin_some (f : FundInfo) {i : String} (hi : f.isin = some i) :
    sel_cusip_from_isin f
      = if (!i.isEmpty) = true then some (pySlice i 2 11, pySlice i 2 11) else none := by
  unfold sel_cusip_from_isin
  rw [hi]

theorem sel_isin_from_sheet_key {f : FundInfo} {k y : String}
    (h : sel_isin_from_sheet f = some (k, y)) : pySlice y 2 11 = k := by
  cases hi : f.isin with
  | none => rw [sel_isin_from_sheet_none f hi] at h; exact absurd h (by simp)
  | some i =>
    rw [sel_isin_from_sheet_some f hi] at h
    by_cases he : i.isEmpty = true
    · rw [if_neg (by simp [he])] at h
      exact absurd h (by simp)
    · rw [if_pos (by simp [he])] at h
      have hp := Option.some_injective _ h
      have hy : i = y := congrArg Prod.snd hp
      have hk : pySlice i 2 11 = k := congrArg Prod.fst hp
      rw [← hy]
      exact hk

theorem sel_isin_from_sheet_src {f : FundInfo} {i : String}
    (hi : f.isin = some i) (he : i.isEmpty = false) :
    sel_isin_from_sheet f = some (pySlice i 2 11, i) := by
  rw [sel_isin_from_sheet_some f hi, if_pos (by simp [he])]

theorem sel_cusip_from_sheet_eq {f : FundInfo} {k y : String}
    (h : sel_cusip_from_sheet f = some (k, y)) : k = y := by
  cases hc : f.cusip with
  | none => rw [sel_cusip_from_sheet_none f hc] at h; exact absurd h (by simp)
  | some c =>
    rw [sel_cusip_from_sheet_some f hc] at h
    by_cases he : c.isEmpty = true
    · rw [if_neg (by simp [he])] at h
      exact absurd h (by simp)
    · rw [if_pos (by simp [he])] at h
      have hp := Option.some_injective _ h
      have h1 := congrArg Prod.fst hp
      have h2 := congrArg Prod.snd hp
      simp only [] at h1 h2
      rw [← h1, ← h2]

theorem sel_cusip_from_sheet_src {f : FundInfo} {c : String}
    (hc : f.cusip = some c) (he : c.isEmpty = false) :
    sel_cusip_from_sheet f = some (c, c) := by
  rw [sel_cusip_from_sheet_some f hc, if_pos (by simp [he])]

theorem sel_isin_from_cusip_shape {f : FundInfo} {k y : String}
    (h : sel_isin_from_cusip f = some (k, y)) :
    f.cusip = some k ∧ k.isEmpty = false ∧ y = make_isin_from_cusip k := by
  cases hc : f.cusip with
  | none => rw [sel_isin_from_cusip_none f hc] at h; exact absurd h (by simp)
  | some c =>
    rw [sel_isin_from_cusip_some f hc] at h
    by_cases he : c.isEmpty = true
    · rw [if_neg (by simp [he])] at h
      exact absurd h (by simp)
    · rw [if_pos (by simp [he])] at h
      have hp := Option.some_injective _ h
      have hk : c = k := congrArg Prod.fst hp
      have hy : make_isin_from_cusip c = y := congrArg Prod.snd hp
      subst hk
      exact ⟨rfl, by simpa using he, hy.symm⟩

theorem sel_cusip_from_isin_eq {f : FundInfo} {k y : String}
    (h : sel_cusip_from_isin f = some (k, y)) : k = y := by
  cases hi : f.isin with
  | none => rw [sel_cusip_from_isin_none f hi] at h; exact absurd h (by simp)
  | some i =>
    rw [sel_cusip_from_isin_some f hi] at h
    by_cases he : i.isEmpty = true
    · rw [if_neg (by simp [he])] at h
      exact absurd h (by simp)
    · rw [if_pos (by simp [he])] at h
      have hp := Option.some_injective _ h
      have h1 := congrArg Prod.fst hp
      have h2 := congrArg Prod.snd hp
      simp only [] at h1 h2
      rw [← h1, ← h2]

theorem sel_cusip_from_isin_shape {f : FundInfo} {k y : String}
    (h : sel_cusip_from_isin f = some (k, y)) :
    ∃ i, f.isin = some i ∧ i.isEmpty = false ∧ k = pySlice i 2 11 := by
  cases hi : f.isin with
  | none => rw [sel_cusip_from_isin_none f hi] at h; exact absurd h (by simp)
  | some i =>
    rw [sel_cusip_from_isin_some f hi] at h
    by_cases he : i.isEmpty = true
    · rw [if_neg (by simp [he])] at h
      exact absurd h (by simp)
    · rw [if_pos (by simp [he])] at h
      have hp := Option.some_injective _ h
      exact ⟨i, rfl, by simpa using he, (congrArg Prod.fst hp).symm⟩

/-! ### Characterizing one remote stage -/

/-- The entries `call_openfigi_stage` stores: for each queried
identifier, its CUSIP-equivalent key mapped to the TickerInfo built
from the best result of its job. -/
def stage_entries (ids : List String) (id_to_cusip : String → String)
    (id_to_job : String → OpenfigiJob)
    (oracle : OpenfigiJob → Option (List FigiResult)) : Cache :=
  ids.map fun i =>
    (id_to_cusip i,
      openfigi_result_as_tickerinfo (id_to_cusip i)
        (get_best_openfigi_result (oracle (id_to_job i))))

theorem call_openfigi_stage_eq (ids : List String) (itc : String → String)
    (itj : String → OpenfigiJob) (oracle : OpenfigiJob → Option (List FigiResult))
    (jp : Nat) (hjp : 1 ≤ jp) :
    call_openfigi_stage ids itc itj oracle jp
      = cacheUnion [] (stage_entries ids itc itj oracle) := by
  simp only [call_openfigi_stage]
  by_cases hids : ids.isEmpty
  · rw [if_pos hids]
    have h0 : ids = [] := by
      cases ids with
      | nil => rfl
      | cons a l => simp at hids
    subst h0
    rfl
  · rw [if_neg hids]
    have hflat : ((group_into_sublists (ids.map itj) jp).map fun g => g.map oracle).flatten
        = (ids.map itj).map oracle := by
      rw [← List.map_flatten, group_into_sublists_flatten jp hjp]
    rw [hflat]
    rw [List.map_map, List.map_map]
    rw [List.zip_map']
    rw [List.map_map]
    rw [List.zip_map']
    rfl

theorem stage_entries_keys (ids : List String) (itc : String → String)
    (itj : String → OpenfigiJob) (oracle : OpenfigiJob → Option (List FigiResult)) :
    (stage_entries ids itc itj oracle).map Prod.fst = ids.map itc := by
  unfold stage_entries
  rw [List.map_map]
  rfl

/-- The oracle resolves every query: the best result of each job
carries a truthy ticker. -/
def OracleResolves (oracle : OpenfigiJob → Option (List FigiResult)) : Prop :=
  ∀ j, truthyOS ((get_best_openfigi_result (oracle j)).bind FigiResult.ticker) = true

theorem stage_entries_truthy {oracle : OpenfigiJob → Option (List FigiResult)}
    (hor : OracleResolves oracle) (ids : List String) (itc : String → String)
    (itj : String → OpenfigiJob) :
    ∀ p ∈ stage_entries ids itc itj oracle, truthyOS p.2.ticker = true := by
  intro p hp
  rcases List.mem_map.1 hp with ⟨i, -, hip⟩
  rw [← hip]
  exact hor (itj i)

theorem cacheInsert_entry_mem (m : Cache) (k : String) (v : TickerInfo) :
    ∀ p ∈ cacheInsert m k v, p = (k, v) ∨ p ∈ m := by
  induction m with
  | nil =>
    intro p hp
    simp only [cacheInsert, List.mem_singleton] at hp
    exact Or.inl hp
  | cons q rest ih =>
    intro p hp
    obtain ⟨k0, v0⟩ := q
    simp only [cacheInsert] at hp
    by_cases h0 : (k0 == k) = true
    · rw [if_pos h0] at hp
      rcases List.mem_cons.1 hp with hp | hp
      · exact Or.inl hp
      · exact Or.inr (List.mem_cons_of_mem _ hp)
    · rw [if_neg h0] at hp
      rcases List.mem_cons.1 hp with hp | hp
      · exact Or.inr (hp ▸ List.mem_cons_self _ _)
      · rcases ih p hp with hp | hp
        · exact Or.inl hp
        · exact Or.inr (List.mem_cons_of_mem _ hp)

theorem cacheUnion_entry_mem (d : Cache) :
    ∀ (m : Cache), ∀ p ∈ cacheUnion m d, p ∈ m ∨ p ∈ d := by
  induction d with
  | nil =>
    intro m p hp
    exact Or.inl hp
  | cons e rest ih =>
    intro m p hp
    rw [cacheUnion_cons] at hp
    rcases ih (cacheInsert m e.1 e.2) p hp with hp | hp
    · rcases cacheInsert_entry_mem m e.1 e.2 p hp with hp | hp
      · exact Or.inr (hp ▸ List.mem_cons_self _ _)
      · exact Or.inl hp
    · exact Or.inr (List.mem_cons_of_mem _ hp)

/-- All values stored by one remote stage have truthy tickers when the
oracle resolves every query. -/
theorem stage_values_truthy {oracle : OpenfigiJob → Option (List FigiResult)}
    (hor : OracleResolves oracle) (ids : List String) (itc : String → String)
    (itj : String → OpenfigiJob) (jp : Nat) (hjp : 1 ≤ jp) :
    ∀ p ∈ call_openfigi_stage ids itc itj oracle jp, truthyOS p.2.ticker = true := by
  intro p hp
  rw [call_openfigi_stage_eq ids itc itj oracle jp hjp] at hp
  rcases cacheUnion_entry_mem _ [] p hp with hp | hp
  · simp at hp
  · exact stage_entries_truthy hor ids itc itj p hp

/-- The keys of one remote stage's dictionary are among
`id_to_cusip` of the queried identifiers. -/
theorem stage_keys_sub (ids : List String) (itc : String → String)
    (itj : String → OpenfigiJob) (oracle : OpenfigiJob → Option (List FigiResult))
    (jp : Nat) (hjp : 1 ≤ jp) :
    ∀ k ∈ (call_openfigi_stage ids itc itj oracle jp).map Prod.fst, k ∈ ids.map itc := by
  intro k hk
  rcases List.mem_map.1 hk with ⟨p, hp, hpk⟩
  rw [call_openfigi_stage_eq ids itc itj oracle jp hjp] at hp
  rcases cacheUnion_entry_mem _ [] p hp with hp | hp
  · simp at hp
  · rw [← stage_entries_keys ids itc itj oracle]
    exact hpk ▸ List.mem_map_of_mem Prod.fst hp

theorem cacheLookup_mem_keys {m : Cache} {k : String} {v : TickerInfo}
    (h : cacheLookup m k = some v) : k ∈ m.map Prod.fst := by
  induction m with
  | nil => simp [cacheLookup] at h
  | cons p rest ih =>
    obtain ⟨k0, v0⟩ := p
    simp only [cacheLookup] at h
    by_cases h0 : (k0 == k) = true
    · simp only [beq_iff_eq] at h0
      simp [h0]
    · rw [if_neg h0] at h
      simp only [List.map_cons, List.mem_cons]
      exact Or.inr (ih h)

theorem tickerKnown_mem_keys {m : Cache} {k : String}
    (h : tickerKnown m k = true) : k ∈ m.map Prod.fst := by
  unfold tickerKnown at h
  cases hl : cacheLookup m k with
  | none => rw [hl] at h; exact absurd h (by simp)
  | some v => exact cacheLookup_mem_keys hl

theorem cacheInsert_keys (m : Cache) (k0 : String) (v : TickerInfo) (k : String) :
    k ∈ (cacheInsert m k0 v).map Prod.fst ↔ k = k0 ∨ k ∈ m.map Prod.fst := by
  induction m with
  | nil => simp [cacheInsert]
  | cons p rest ih =>
    obtain ⟨k1, v1⟩ := p
    simp only [cacheInsert]
    by_cases h1 : (k1 == k0) = true
    · rw [if_pos h1]
      simp only [beq_iff_eq] at h1
      subst h1
      simp only [List.map_cons, List.mem_cons]
      tauto
    · rw [if_neg h1]
      simp only [List.map_cons, List.mem_cons, ih]
      tauto

theorem cacheUnion_keys (d : Cache) : ∀ (m : Cache) (k : String),
    k ∈ (cacheUnion m d).map Prod.fst ↔ k ∈ m.map Prod.fst ∨ k ∈ d.map Prod.fst := by
  induction d with
  | nil =>
    intro m k
    simp [cacheUnion]
  | cons e rest ih =>
    intro m k
    rw [cacheUnion_cons]
    rw [ih (cacheInsert m e.1 e.2) k]
    rw [cacheInsert_keys]
    simp only [List.map_cons, List.mem_cons]
    tauto

/-- Slicing positions 2–11 out of the ISIN synthesized from a
9-character CUSIP gives back the CUSIP. -/
theorem pySlice_make_isin {c : String} (h : c.length = 9) :
    pySlice (make_isin_from_cusip c) 2 11 = c := by
  have hlen : c.toList.length = 9 := h
  unfold make_isin_from_cusip pySlice
  rw [show ("US" ++ c ++ isin_check_digit ("US" ++ c)).toList
      = 'U' :: 'S' :: (c.toList ++ (isin_check_digit ("US" ++ c)).toList) from by simp]
  rw [show ∀ l : List Char, ('U' :: 'S' :: l).drop 2 = l from fun l => rfl]
  rw [show (11 : Nat) - 2 = 9 from rfl]
  rw [List.take_left' hlen]
  cases c
  rfl

/-! ### Facts about the four passes of one run -/

theorem run_r1_keys_eq (funds : List FundInfo) (cache0 : Cache) :
    (run_r1 funds cache0).1.map (fun p => pySlice p.2 2 11)
      = (run_r1 funds cache0).1.map Prod.fst := by
  apply List.map_eq_map_iff.mpr
  intro p hp
  obtain ⟨⟨f, -, hsel⟩, -, -⟩ :=
    plan_pass_pairs_mem sel_isin_from_sheet funds cache0 (run_q0 cache0) p hp
  exact sel_isin_from_sheet_key (show sel_isin_from_sheet f = some (p.1, p.2) from hsel)

theorem run_r2_keys_eq (funds : List FundInfo) (cache0 : Cache)
    (oracle : OpenfigiJob → Option (List FigiResult)) (jp : Nat) :
    (run_r2 funds cache0 oracle jp).1.map Prod.snd
      = (run_r2 funds cache0 oracle jp).1.map Prod.fst := by
  apply List.map_eq_map_iff.mpr
  intro p hp
  obtain ⟨⟨f, -, hsel⟩, -, -⟩ := plan_pass_pairs_mem sel_cusip_from_sheet funds
    (run_c1 funds cache0 oracle jp) (run_q0 cache0) p hp
  exact (sel_cusip_from_sheet_eq (show sel_cusip_from_sheet f = some (p.1, p.2) from hsel)).symm

theorem run_r4_keys_eq (funds : List FundInfo) (cache0 : Cache)
    (oracle : OpenfigiJob → Option (List FigiResult)) (jp : Nat) :
    (run_r4 funds cache0 oracle jp).1.map Prod.snd
      = (run_r4 funds cache0 oracle jp).1.map Prod.fst := by
  apply List.map_eq_map_iff.mpr
  intro p hp
  obtain ⟨⟨f, -, hsel⟩, -, -⟩ := plan_pass_pairs_mem sel_cusip_from_isin funds
    (run_c3 funds cache0 oracle jp) (run_r2 funds cache0 oracle jp).2 p hp
  exact (sel_cusip_from_isin_eq (show sel_cusip_from_isin f = some (p.1, p.2) from hsel)).symm

/-- Membership transfer from a pass's keys to the keys of the
dictionary its stage builds (valid whenever`id_to_cusip ∘ yielded`
coincides with the pass's dedup keys). -/
theorem stage_keys_of_pairs {pairs : List (String × String)} (itc : String → String)
    (itj : String → OpenfigiJob) (oracle : OpenfigiJob → Option (List FigiResult))
    (jp : Nat) (hjp : 1 ≤ jp)
    (heq : pairs.map (fun p => itc p.2) = pairs.map Prod.fst)
    {k : String} (hk : k ∈ pairs.map Prod.fst) :
    k ∈ (call_openfigi_stage (pairs.map Prod.snd) itc itj oracle jp).map Prod.fst := by
  rw [call_openfigi_stage_eq _ _ _ _ _ hjp]
  rw [cacheUnion_keys (stage_entries (pairs.map Prod.snd) itc itj oracle) [] k]
  right
  rw [stage_entries_keys, List.map_map]
  rw [show (pairs.map (itc ∘ Prod.snd)) = pairs.map (fun p => itc p.2) from rfl, heq]
  exact hk

theorem tickerKnown_c1_of_keys1 (funds : List FundInfo) (cache0 : Cache)
    (oracle : OpenfigiJob → Option (List FigiResult)) (jp : Nat)
    (hjp : 1 ≤ jp) (hor : OracleResolves oracle) {k : String}
    (hk : k ∈ (run_r1 funds cache0).1.map Prod.fst) :
    tickerKnown (run_c1 funds cache0 oracle jp) k = true := by
  apply tickerKnown_union_of_mem
  · intro p hp
    exact stage_values_truthy hor _ _ _ _ hjp p hp
  · exact stage_keys_of_pairs _ _ oracle jp hjp (run_r1_keys_eq funds cache0) hk

theorem tickerKnown_c2_of_keys2 (funds : List FundInfo) (cache0 : Cache)
    (oracle : OpenfigiJob → Option (List FigiResult)) (jp : Nat)
    (hjp : 1 ≤ jp) (hor : OracleResolves oracle) {k : String}
    (hk : k ∈ (run_r2 funds cache0 oracle jp).1.map Prod.fst) :
    tickerKnown (run_c2 funds cache0 oracle jp) k = true := by
  apply tickerKnown_union_of_mem
  · intro p hp
    exact stage_values_truthy hor _ _ _ _ hjp p hp
  · refine stage_keys_of_pairs _ _ oracle jp hjp ?_ hk
    exact run_r2_keys_eq funds cache0 oracle jp

theorem tickerKnown_c2_of_c1 (funds : List FundInfo) (cache0 : Cache)
    (oracle : OpenfigiJob → Option (List FigiResult)) (jp : Nat)
    (hjp : 1 ≤ jp) (hor : OracleResolves oracle) {k : String}
    (h : tickerKnown (run_c1 funds cache0 oracle jp) k = true) :
    tickerKnown (run_c2 funds cache0 oracle jp) k = true := by
  apply tickerKnown_union_mono
  · intro p hp
    exact stage_values_truthy hor _ _ _ _ hjp p hp
  · exact h

theorem tickerKnown_c3_of_c2 (funds : List FundInfo) (cache0 : Cache)
    (oracle : OpenfigiJob → Option (List FigiResult)) (jp : Nat)
    (hjp : 1 ≤ jp) (hor : OracleResolves oracle) {k : String}
    (h : tickerKnown (run_c2 funds cache0 oracle jp) k = true) :
    tickerKnown (run_c3 funds cache0 oracle jp) k = true := by
  apply tickerKnown_union_mono
  · intro p hp
    exact stage_values_truthy hor _ _ _ _ hjp p hp
  · exact h

/-- With an always-resolving oracle, pass 3 yields nothing: every truthy
cusip was already handled by pass 2 or sits in the pre-existing cache. -/
theorem run_r3_nil (funds : List FundInfo) (cache0 : Cache)
    (oracle : OpenfigiJob → Option (List FigiResult)) (jp : Nat)
    (hjp : 1 ≤ jp) (hor : OracleResolves oracle) :
    (run_r3 funds cache0 oracle jp).1 = [] := by
  rw [List.eq_nil_iff_forall_not_mem]
  intro p hp
  obtain ⟨⟨f, hf, hsel⟩, htk, hq⟩ := plan_pass_pairs_mem sel_isin_from_cusip funds
    (run_c2 funds cache0 oracle jp) (run_r1 funds cache0).2 p hp
  obtain ⟨hcus, hcne, -⟩ :=
    sel_isin_from_cusip_shape (show sel_isin_from_cusip f = some (p.1, p.2) from hsel)
  have hcover := plan_pass_cover sel_cusip_from_sheet funds
    (run_c1 funds cache0 oracle jp) (run_q0 cache0) f hf p.1 p.1
    (sel_cusip_from_sheet_src hcus hcne)
  rcases hcover with h | h | h
  · have h2 := tickerKnown_c2_of_keys2 funds cache0 oracle jp hjp hor h
    exact absurd (htk ▸ h2) (by decide)
  · have h2 := tickerKnown_c2_of_c1 funds cache0 oracle jp hjp hor h
    exact absurd (htk ▸ h2) (by decide)
  · exact hq (plan_pass_queried_mono sel_isin_from_sheet funds cache0 (run_q0 cache0) p.1 h)

/-- With an always-resolving oracle, pass 4 yields nothing either. -/
theorem run_r4_nil (funds : List FundInfo) (cache0 : Cache)
    (oracle : OpenfigiJob → Option (List FigiResult)) (jp : Nat)
    (hjp : 1 ≤ jp) (hor : OracleResolves oracle) :
    (run_r4 funds cache0 oracle jp).1 = [] := by
  rw [List.eq_nil_iff_forall_not_mem]
  intro p hp
  obtain ⟨⟨f, hf, hsel⟩, htk, hq⟩ := plan_pass_pairs_mem sel_cusip_from_isin funds
    (run_c3 funds cache0 oracle jp) (run_r2 funds cache0 oracle jp).2 p hp
  obtain ⟨i, hisin, hine, hk⟩ :=
    sel_cusip_from_isin_shape (show sel_cusip_from_isin f = some (p.1, p.2) from hsel)
  have hcover := plan_pass_cover sel_isin_from_sheet funds cache0 (run_q0 cache0)
    f hf (pySlice i 2 11) i (sel_isin_from_sheet_src hisin hine)
  have hq2mono := plan_pass_queried_mono sel_cusip_from_sheet funds
    (run_c1 funds cache0 oracle jp) (run_q0 cache0)
  rcases hcover with h | h | h
  · have h1 := tickerKnown_c1_of_keys1 funds cache0 oracle jp hjp hor (hk ▸ h)
    have h3 := tickerKnown_c3_of_c2 funds cache0 oracle jp hjp hor
      (tickerKnown_c2_of_c1 funds cache0 oracle jp hjp hor h1)
    exact absurd (htk ▸ h3) (by decide)
  · have hmem : p.1 ∈ run_q0 cache0 := hk ▸ tickerKnown_mem_keys h
    exact hq (hq2mono p.1 hmem)
  · exact hq (hq2mono p.1 (hk ▸ h))

/-- **C2 — amended.** Provided every remote query resolves to a result
with a non-null ticker, the four query-planner passes taken together
never yield the same 9-character CUSIP-equivalent key twice (in
general a key can be yielded once per dedup family — passes 1/3 share
one set, passes 2/4 the other — the second time only when the earlier
query stored no ticker, as `claim_C2_counterexample` exhibits). -/
theorem claim_C2_amended (funds : List FundInfo) (cache0 : Cache)
    (oracle : OpenfigiJob → Option (List FigiResult)) (jp : Nat)
    (hjp : 1 ≤ jp) (hor : OracleResolves oracle) :
    (planned_keys (openfigi_run funds cache0 oracle jp)).Nodup := by
  have hpk : planned_keys (openfigi_run funds cache0 oracle jp)
      = (run_r1 funds cache0).1.map (fun p => pySlice p.2 2 11)
        ++ (run_r2 funds cache0 oracle jp).1.map Prod.snd
        ++ (run_r3 funds cache0 oracle jp).1.map (fun p => pySlice p.2 2 11)
        ++ (run_r4 funds cache0 oracle jp).1.map Prod.snd := rfl
  rw [hpk, run_r3_nil funds cache0 oracle jp hjp hor,
    run_r4_nil funds cache0 oracle jp hjp hor]
  simp only [List.map_nil, List.append_nil]
  rw [run_r1_keys_eq funds cache0, run_r2_keys_eq funds cache0 oracle jp]
  apply List.Nodup.append
  · exact plan_pass_keys_nodup sel_isin_from_sheet funds cache0 (run_q0 cache0)
  · exact plan_pass_keys_nodup sel_cusip_from_sheet funds
      (run_c1 funds cache0 oracle jp) (run_q0 cache0)
  · intro k hk1 hk2
    have htkc1 := tickerKnown_c1_of_keys1 funds cache0 oracle jp hjp hor hk1
    rcases List.mem_map.1 hk2 with ⟨p, hp, hpk2⟩
    obtain ⟨-, htk, -⟩ := plan_pass_pairs_mem sel_cusip_from_sheet funds
      (run_c1 funds cache0 oracle jp) (run_q0 cache0) p hp
    rw [hpk2] at htk
    exact absurd (htk ▸ htkc1) (by decide)

/-- An oracle that resolves every query to a fixed US-exchange
ticker, for the witness below. -/
def resolving_oracle : OpenfigiJob → Option (List FigiResult) :=
  fun _ => some [{ ticker := some "TICK", exchCode := some "US" }]

/-- Witness for `claim_C2_amended`: the counterexample candidate set,
an empty cache and a resolving oracle give duplicate-free keys. -/
theorem claim_C2_witness :
    (1 ≤ 10 ∧ OracleResolves resolving_oracle)
      ∧ (planned_keys (openfigi_run [c2fund] [] resolving_oracle 10)).Nodup :=
  ⟨⟨by decide, fun _ => rfl⟩,
    claim_C2_amended [c2fund] [] resolving_oracle 10 (by decide) (fun _ => rfl)⟩

/-! ### Persistence of cache entries across a run -/

/-- CUSIP well-formedness as the candidate filter guarantees it: a
truthy `cusip` field holds exactly 9 characters. -/
def wf_cusip9 (f : FundInfo) : Bool :=
  match f.cusip with
  | some c => c.isEmpty || c.length == 9
  | none => true

theorem wf_cusip9_some {f : FundInfo} {c : String} (hc : f.cusip = some c) :
    wf_cusip9 f = (c.isEmpty || c.length == 9) := by
  unfold wf_cusip9
  rw [hc]

/-- Analogue of `run_r1_keys_eq` for pass 3, under CUSIP
well-formedness: slicing positions 2–11 of the synthesized ISINs
recovers the dedup keys. -/
theorem run_r3_keys_eq (funds : List FundInfo) (cache0 : Cache)
    (oracle : OpenfigiJob → Option (List FigiResult)) (jp : Nat)
    (hwf : ∀ f ∈ funds, wf_cusip9 f = true) :
    (run_r3 funds cache0 oracle jp).1.map (fun p => pySlice p.2 2 11)
      = (run_r3 funds cache0 oracle jp).1.map Prod.fst := by
  apply List.map_eq_map_iff.mpr
  intro p hp
  obtain ⟨⟨f, hf, hsel⟩, -, -⟩ := plan_pass_pairs_mem sel_isin_from_cusip funds
    (run_c2 funds cache0 oracle jp) (run_r1 funds cache0).2 p hp
  obtain ⟨hcus, hcne, hyld⟩ :=
    sel_isin_from_cusip_shape (show sel_isin_from_cusip f = some (p.1, p.2) from hsel)
  have hw := hwf f hf
  rw [wf_cusip9_some hcus, hcne] at hw
  have hlen : p.1.length = 9 := by
    simpa using hw
  rw [hyld]
  exact pySlice_make_isin hlen

/-- The keys of one stage's dictionary are among the dedup keys of the
pairs that fed it (whenever `id_to_cusip` of the yielded identifiers
coincides with the dedup keys). -/
theorem stage_keys_sub_pairs {pairs : List (String × String)} (itc : String → String)
    (itj : String → OpenfigiJob) (oracle : OpenfigiJob → Option (List FigiResult))
    (jp : Nat) (hjp : 1 ≤ jp)
    (heq : pairs.map (fun p => itc p.2) = pairs.map Prod.fst) :
    ∀ k ∈ (call_openfigi_stage (pairs.map Prod.snd) itc itj oracle jp).map Prod.fst,
      k ∈ pairs.map Prod.fst := by
  intro k hk
  have h := stage_keys_sub (pairs.map Prod.snd) itc itj oracle jp hjp k hk
  rw [List.map_map] at h
  rw [show pairs.map (itc ∘ Prod.snd) = pairs.map (fun p => itc p.2) from rfl, heq] at h
  exact h

/-- Every key pass 1's dictionary stores was unresolved in the initial
cache and absent from its key set. -/
theorem run_d1_keys (funds : List FundInfo) (cache0 : Cache)
    (oracle : OpenfigiJob → Option (List FigiResult)) (jp : Nat) (hjp : 1 ≤ jp) :
    ∀ k ∈ (run_d1 funds cache0 oracle jp).map Prod.fst,
      tickerKnown cache0 k = false ∧ k ∉ run_q0 cache0 := by
  intro k hk
  have hkp : k ∈ (run_r1 funds cache0).1.map Prod.fst :=
    stage_keys_sub_pairs _ _ oracle jp hjp (run_r1_keys_eq funds cache0) k hk
  rcases List.mem_map.1 hkp with ⟨p, hp, hpk⟩
  obtain ⟨-, htk, hq⟩ :=
    plan_pass_pairs_mem sel_isin_from_sheet funds cache0 (run_q0 cache0) p hp
  exact ⟨hpk ▸ htk, hpk ▸ hq⟩

/-- Every key pass 2's dictionary stores was unresolved in `run_c1` and
absent from the initial cache's key set. -/
theorem run_d2_keys (funds : List FundInfo) (cache0 : Cache)
    (oracle : OpenfigiJob → Option (List FigiResult)) (jp : Nat) (hjp : 1 ≤ jp) :
    ∀ k ∈ (run_d2 funds cache0 oracle jp).map Prod.fst,
      tickerKnown (run_c1 funds cache0 oracle jp) k = false ∧ k ∉ run_q0 cache0 := by
  intro k hk
  have hkp : k ∈ (run_r2 funds cache0 oracle jp).1.map Prod.fst :=
    stage_keys_sub_pairs _ _ oracle jp hjp (run_r2_keys_eq funds cache0 oracle jp) k hk
  rcases List.mem_map.1 hkp with ⟨p, hp, hpk⟩
  obtain ⟨-, htk, hq⟩ := plan_pass_pairs_mem sel_cusip_from_sheet funds
    (run_c1 funds cache0 oracle jp) (run_q0 cache0) p hp
  exact ⟨hpk ▸ htk, hpk ▸ hq⟩

/-- Every key pass 3's dictionary stores (under CUSIP well-formedness)
was unresolved in `run_c2` and absent from the initial cache's key
set. -/
theorem run_d3_keys (funds : List FundInfo) (cache0 : Cache)
    (oracle : OpenfigiJob → Option (List FigiResult)) (jp : Nat) (hjp : 1 ≤ jp)
    (hwf : ∀ f ∈ funds, wf_cusip9 f = true) :
    ∀ k ∈ (run_d3 funds cache0 oracle jp).map Prod.fst,
      tickerKnown (run_c2 funds cache0 oracle jp) k = false ∧ k ∉ run_q0 cache0 := by
  intro k hk
  have hkp : k ∈ (run_r3 funds cache0 oracle jp).1.map Prod.fst :=
    stage_keys_sub_pairs _ _ oracle jp hjp (run_r3_keys_eq funds cache0 oracle jp hwf) k hk
  rcases List.mem_map.1 hkp with ⟨p, hp, hpk⟩
  obtain ⟨-, htk, hq⟩ := plan_pass_pairs_mem sel_isin_from_cusip funds
    (run_c2 funds cache0 oracle jp) (run_r1 funds cache0).2 p hp
  refine ⟨hpk ▸ htk, fun hmem => (hpk ▸ hq) ?_⟩
  exact plan_pass_queried_mono sel_isin_from_sheet funds cache0 (run_q0 cache0) k hmem

/-- Every key pass 4's dictionary stores was unresolved in `run_c3` and
absent from the initial cache's key set. -/
theorem run_d4_keys (funds : List FundInfo) (cache0 : Cache)
    (oracle : OpenfigiJob → Option (List FigiResult)) (jp : Nat) (hjp : 1 ≤ jp) :
    ∀ k ∈ (run_d4 funds cache0 oracle jp).map Prod.fst,
      tickerKnown (run_c3 funds cache0 oracle jp) k = false ∧ k ∉ run_q0 cache0 := by
  intro k hk
  have hkp : k ∈ (run_r4 funds cache0 oracle jp).1.map Prod.fst :=
    stage_keys_sub_pairs _ _ oracle jp hjp (run_r4_keys_eq funds cache0 oracle jp) k hk
  rcases List.mem_map.1 hkp with ⟨p, hp, hpk⟩
  obtain ⟨-, htk, hq⟩ := plan_pass_pairs_mem sel_cusip_from_isin funds
    (run_c3 funds cache0 oracle jp) (run_r2 funds cache0 oracle jp).2 p hp
  refine ⟨hpk ▸ htk, fun hmem => (hpk ▸ hq) ?_⟩
  exact plan_pass_queried_mono sel_cusip_from_sheet funds
    (run_c1 funds cache0 oracle jp) (run_q0 cache0) k hmem

/-- Entry stability between two cache states: entries whose stored
ticker is truthy survive unchanged. -/
def cacheStable (a b : Cache) : Prop :=
  ∀ k v, cacheLookup a k = some v → truthyOS v.ticker = true → cacheLookup b k = some v

/-- **C3 — amended.** Entries of the cache loaded at the start of the
run are never changed by any of the four updates, and an entry whose
stored ticker is truthy is never changed by any later update; only an
entry stored by an earlier pass *with a null ticker* can be overwritten
by a later pass (as `claim_C3_counterexample` exhibits), so the
claimed write-once property holds for all other entries.  Requires the
candidate filter's guarantee that truthy cusips have 9 characters. -/
theorem claim_C3_amended (funds : List FundInfo) (cache0 : Cache)
    (oracle : OpenfigiJob → Option (List FigiResult)) (jp : Nat)
    (hjp : 1 ≤ jp) (hwf : ∀ f ∈ funds, wf_cusip9 f = true) :
    (∀ k v, cacheLookup cache0 k = some v
        → cacheLookup (run_c4 funds cache0 oracle jp) k = some v)
      ∧ cacheStable (run_c1 funds cache0 oracle jp) (run_c2 funds cache0 oracle jp)
      ∧ cacheStable (run_c2 funds cache0 oracle jp) (run_c3 funds cache0 oracle jp)
      ∧ cacheStable (run_c3 funds cache0 oracle jp) (run_c4 funds cache0 oracle jp) := by
  refine ⟨?_, ?_, ?_, ?_⟩
  · intro k v hl
    have hq0 : k ∈ run_q0 cache0 := cacheLookup_mem_keys hl
    have h1 : cacheLookup (run_c1 funds cache0 oracle jp) k = cacheLookup cache0 k := by
      apply cacheLookup_union_of_not_mem
      intro hmem
      exact (run_d1_keys funds cache0 oracle jp hjp k hmem).2 hq0
    have h2 : cacheLookup (run_c2 funds cache0 oracle jp) k
        = cacheLookup (run_c1 funds cache0 oracle jp) k := by
      apply cacheLookup_union_of_not_mem
      intro hmem
      exact (run_d2_keys funds cache0 oracle jp hjp k hmem).2 hq0
    have h3 : cacheLookup (run_c3 funds cache0 oracle jp) k
        = cacheLookup (run_c2 funds cache0 oracle jp) k := by
      apply cacheLookup_union_of_not_mem
      intro hmem
      exact (run_d3_keys funds cache0 oracle jp hjp hwf k hmem).2 hq0
    have h4 : cacheLookup (run_c4 funds cache0 oracle jp) k
        = cacheLookup (run_c3 funds cache0 oracle jp) k := by
      apply cacheLookup_union_of_not_mem
      intro hmem
      exact (run_d4_keys funds cache0 oracle jp hjp k hmem).2 hq0
    rw [h4, h3, h2, h1]
    exact hl
  · intro k v hl htr
    have htk : tickerKnown (run_c1 funds cache0 oracle jp) k = true := by
      unfold tickerKnown
      rw [hl]
      exact htr
    have h2 : cacheLookup (run_c2 funds cache0 oracle jp) k
        = cacheLookup (run_c1 funds cache0 oracle jp) k := by
      apply cacheLookup_union_of_not_mem
      intro hmem
      have hf := (run_d2_keys funds cache0 oracle jp hjp k hmem).1
      exact absurd (htk.symm.trans hf) (by decide)
    rw [h2]
    exact hl
  · intro k v hl htr
    have htk : tickerKnown (run_c2 funds cache0 oracle jp) k = true := by
      unfold tickerKnown
      rw [hl]
      exact htr
    have h3 : cacheLookup (run_c3 funds cache0 oracle jp) k
        = cacheLookup (run_c2 funds cache0 oracle jp) k := by
      apply cacheLookup_union_of_not_mem
      intro hmem
      have hf := (run_d3_keys funds cache0 oracle jp hjp hwf k hmem).1
      exact absurd (htk.symm.trans hf) (by decide)
    rw [h3]
    exact hl
  · intro k v hl htr
    have htk : tickerKnown (run_c3 funds cache0 oracle jp) k = true := by
      unfold tickerKnown
      rw [hl]
      exact htr
    have h4 : cacheLookup (run_c4 funds cache0 oracle jp) k
        = cacheLookup (run_c3 funds cache0 oracle jp) k := by
      apply cacheLookup_union_of_not_mem
      intro hmem
      have hf := (run_d4_keys funds cache0 oracle jp hjp k hmem).1
      exact absurd (htk.symm.trans hf) (by decide)
    rw [h4]
    exact hl

/-- Witness for `claim_C3_amended` at the counterexample scenario's
candidate set and oracle, over an empty initial cache. -/
theorem claim_C3_witness :
    (1 ≤ 10 ∧ (∀ f ∈ [c2fund], wf_cusip9 f = true))
      ∧ ((∀ k v, cacheLookup [] k = some v
            → cacheLookup (run_c4 [c2fund] [] c2oracle 10) k = some v)
          ∧ cacheStable (run_c1 [c2fund] [] c2oracle 10) (run_c2 [c2fund] [] c2oracle 10)
          ∧ cacheStable (run_c2 [c2fund] [] c2oracle 10) (run_c3 [c2fund] [] c2oracle 10)
          ∧ cacheStable (run_c3 [c2fund] [] c2oracle 10) (run_c4 [c2fund] [] c2oracle 10)) :=
  ⟨⟨by decide, by decide⟩,
    claim_C3_amended [c2fund] [] c2oracle 10 (by decide) (by decide)⟩

/-! ## Wikitext generator (`bin/generate-wikitext.py`,
`result_for_fundinfo` and `enhance_fund_data`)

The funds reach this script through the intermediate CSV, where every
field is a plain string (an absent value reads back as `""`); the
embedding keeps the shared `FundInfo` record and reads a field `x` as
`x.getD ""` wherever the source uses it as a string.  The categories
dictionary is abstracted by its lookup function, and the
trailing-rubbish cleanup regex — which only rewrites `fund_name` — by
a string transformer passed in as `strip_rubbish`. -/

/-- Look one key up in the CUSIP→TickerInfo dictionary, requiring a
truthy ticker (`key in m and m[key].ticker`). -/
def rff_by_key (m : Cache) (key : String) : Option (String × TickerInfo) :=
  match cacheLookup m key with
  | some ti => if truthyOS ti.ticker then some (key, ti) else none
  | none => none

/-- `result_for_fundinfo(fund, cusip_to_tickerinfo)`: prefer the
ISIN-derived key `isin[2:11]`, else fall back to the CUSIP, in either
case requiring the key to resolve to an entry with a truthy ticker. -/
def result_for_fundinfo (fund : FundInfo) (m : Cache) : Option (String × TickerInfo) :=
  match (if truthyOS fund.isin then rff_by_key m (pySlice (fund.isin.getD "") 2 11)
         else none) with
  | some r => some r
  | none => if truthyOS fund.cusip then rff_by_key m (fund.cusip.getD "") else none

theorem rff_by_key_sound {m : Cache} {key c : String} {ti : TickerInfo}
    (h : rff_by_key m key = some (c, ti)) :
    cacheLookup m c = some ti ∧ truthyOS ti.ticker = true := by
  unfold rff_by_key at h
  split at h
  · next t hl =>
    split at h
    · next ht =>
      have hp := Option.some_injective _ h
      have h1 : key = c := congrArg Prod.fst hp
      have h2 : t = ti := congrArg Prod.snd hp
      subst h1
      subst h2
      exact ⟨hl, ht⟩
    · exact absurd h (by simp)
  · exact absurd h (by simp)

/-- Whatever branch resolved the fund, the returned key maps to the
returned entry, and the entry's ticker is truthy. -/
theorem result_for_fundinfo_sound {fund : FundInfo} {m : Cache} {c : String}
    {ti : TickerInfo} (h : result_for_fundinfo fund m = some (c, ti)) :
    cacheLookup m c = some ti ∧ truthyOS ti.ticker = true := by
  unfold result_for_fundinfo at h
  cases h1 : (if truthyOS fund.isin then rff_by_key m (pySlice (fund.isin.getD "") 2 11)
      else none) with
  | some r =>
    rw [h1] at h
    have hr : r = (c, ti) := Option.some_injective _ h
    by_cases hi : truthyOS fund.isin = true
    · rw [if_pos hi] at h1
      exact rff_by_key_sound (hr ▸ h1)
    · rw [if_neg hi] at h1
      exact absurd h1 (by simp)
  | none =>
    rw [h1] at h
    by_cases hc : truthyOS fund.cusip = true
    · have h2 : rff_by_key m (fund.cusip.getD "") = some (c, ti) := by
        have h3 : (if truthyOS fund.cusip then rff_by_key m (fund.cusip.getD "")
            else none) = some (c, ti) := h
        rw [if_pos hc] at h3
        exact h3
      exact rff_by_key_sound h2
    · have h3 : (if truthyOS fund.cusip then rff_by_key m (fund.cusip.getD "")
          else none) = some (c, ti) := h
      rw [if_neg hc] at h3
      exact absurd h3 (by simp)

/-- ASCII `\s`, the whitespace class of the source's regexes. -/
def pyIsSpace (c : Char) : Bool :=
  c == ' ' || c == '\t' || c == '\n' || c == '\r' || c == '\x0B' || c == '\x0C'

/-- ASCII `\w`, the word class deciding `\b` boundaries. -/
def pyIsWord (c : Char) : Bool := c.isAlphanum || c == '_'

/-- Case-insensitive character comparison (`re.I`). -/
def ciEqChar (a b : Char) : Bool := a.toLower == b.toLower

def ciEqList : List Char → List Char → Bool
  | [], [] => true
  | a :: xs, b :: ys => ciEqChar a b && ciEqList xs ys
  | _, _ => false

/-- Word-ness of position `i` of `l`; out-of-range positions count as
non-word. -/
def wordAt (l : List Char) (i : Nat) : Bool := pyIsWord (l.getD i ' ')

/-- One alternative of `family_regex`: match `^F\b` against `s`
case-insensitively; the `\b` compares the word-ness on either side of
position `F.length`. -/
def family_match_one (F : String) (s : String) : Bool :=
  ciEqList F.toList (s.toList.take F.length)
    && ((if F.length = 0 then false else wordAt s.toList (F.length - 1))
        != wordAt s.toList F.length)

/-- `m = family_regex.match(fund.family); if m: fund.family = m.group(1)`:
the alternatives are tried in file order and the matched text keeps the
input's casing.  (With an empty families file the degenerate pattern
`^()\b` matches exactly when the name starts with a word character,
leaving an empty group.) -/
def family_replace (families : List String) (fam : String) : String :=
  match families with
  | [] => if wordAt fam.toList 0 then "" else fam
  | _ :: _ =>
    match families.find? (fun F => family_match_one F fam) with
    | some F => String.mk (fam.toList.take F.length)
    | none => fam

/-- The fund-name cleanup
`re.sub('^'+re.escape(fund.family)+r'\s+', '', fund.fund_name, re.I)`:
`re.I` (= 2) is passed positionally as `count`, not as `flags`, so the
match is case-SENSITIVE (and capped at two replacements, which the `^`
anchor caps at one anyway): the family name plus the following
whitespace run is stripped only when the name starts with a
byte-identical copy of it. -/
def stripFamilyFromName (family name : String) : String :=
  let nl := name.toList
  let fl := family.toList
  if fl.isPrefixOf nl then
    let rest := nl.drop fl.length
    let ws := rest.takeWhile pyIsSpace
    if ws.isEmpty then name else String.mk (rest.drop ws.length)
  else name

/-- The same cleanup as the specification words it: case-insensitive,
as `re.sub(..., flags=re.I)` would behave. -/
def stripFamilyFromName_ci (family name : String) : String :=
  let nl := name.toList
  let fl := family.toList
  if ciEqList fl (nl.take fl.length) then
    let rest := nl.drop fl.length
    let ws := rest.takeWhile pyIsSpace
    if ws.isEmpty then name else String.mk (rest.drop ws.length)
  else name

/-- The loop state of `enhance_fund_data` (the uncategorized list only
feeds the error message, so a flag suffices). -/
structure EnhanceState where
  result : List FundInfo
  seen_cusips : List String
  uncategorized : Bool
deriving Repr

/-- One iteration of the `enhance_fund_data` loop. -/
def enhance_step (m : Cache) (families : List String)
    (cats : String → Option String) (strip_rubbish : String → String)
    (st : EnhanceState) (fund : FundInfo) : EnhanceState :=
  match result_for_fundinfo fund m with
  | none => st
  | some (cusip, ti) =>
    if st.seen_cusips.contains cusip then st
    else
      let seen' := cusip :: st.seen_cusips
      let f1 := { fund with ticker := ti.ticker, cusip := some cusip,
                            isin := some (make_isin_from_cusip cusip) }
      let f2 := { f1 with family := some (family_replace families (f1.family.getD "")) }
      match cats cusip with
      | none => { st with seen_cusips := seen', uncategorized := true }
      | some cat =>
        if cat.isEmpty then { st with seen_cusips := seen' }
        else
          let f3 := { f2 with category := some cat }
          let name1 := stripFamilyFromName (f3.family.getD "") (f3.fund_name.getD "")
          let f4 := { f3 with fund_name := some (strip_rubbish name1) }
          { st with result := st.result ++ [f4], seen_cusips := seen' }

/-- The sort key `f.family.upper() + '    ' + f.fund_name.upper()`. -/
def fund_sort_key (f : FundInfo) : String :=
  (f.family.getD "").toUpper ++ "    " ++ (f.fund_name.getD "").toUpper

/-- Stable insertion into a list sorted by `fund_sort_key`. -/
def insert_by_key (x : FundInfo) : List FundInfo → List FundInfo
  | [] => [x]
  | y :: ys =>
    if fund_sort_key x < fund_sort_key y then x :: y :: ys
    else y :: insert_by_key x ys

/-- `result.sort(key=...)` — Python's stable sort, as stable insertion
sort. -/
def sort_funds (l : List FundInfo) : List FundInfo :=
  l.foldl (fun acc f => insert_by_key f acc) []

/-- `enhance_fund_data` (bin/generate-wikitext.py): match funds with
ticker data and categories, canonicalize the identifiers from the
resolved key, clean the names, skip duplicate keys, sort; the
`sys.exit(1)` on uncategorized funds is modeled as `none`. -/
def enhance_fund_data (funds : List FundInfo) (m : Cache) (families : List String)
    (cats : String → Option String) (strip_rubbish : String → String) :
    Option (List FundInfo) :=
  let st := funds.foldl (enhance_step m families cats strip_rubbish)
    { result := [], seen_cusips := [], uncategorized := false }
  if st.uncategorized then none else some (sort_funds st.result)

theorem mem_insert_by_key (x z : FundInfo) (l : List FundInfo) :
    z ∈ insert_by_key x l ↔ z = x ∨ z ∈ l := by
  induction l with
  | nil => simp [insert_by_key]
  | cons y ys ih =>
    simp only [insert_by_key]
    by_cases h : fund_sort_key x < fund_sort_key y
    · rw [if_pos h]
      simp only [List.mem_cons]
    · rw [if_neg h]
      simp only [List.mem_cons, ih]
      tauto

theorem mem_sort_funds (z : FundInfo) (l : List FundInfo) :
    z ∈ sort_funds l ↔ z ∈ l := by
  have H : ∀ (l acc : List FundInfo),
      (z ∈ l.foldl (fun acc f => insert_by_key f acc) acc ↔ z ∈ acc ∨ z ∈ l) := by
    intro l
    induction l with
    | nil =>
      intro acc
      simp
    | cons y ys ih =>
      intro acc
      simp only [List.foldl_cons]
      rw [ih (insert_by_key y acc), mem_insert_by_key]
      simp only [List.mem_cons]
      tauto
  unfold sort_funds
  rw [H l []]
  simp

/-- The identifier-consistency property C7 asserts of the emitted
records. -/
def enhanced_consistent (m : Cache) (f : FundInfo) : Prop :=
  ∃ c ti, cacheLookup m c = some ti ∧ truthyOS ti.ticker = true
    ∧ f.ticker = ti.ticker ∧ f.cusip = some c ∧ c.length = 9
    ∧ f.isin = some ("US" ++ c ++ isin_check_digit ("US" ++ c))

theorem enhance_step_inv (m : Cache) (families : List String)
    (cats : String → Option String) (strip_rubbish : String → String)
    (hwf9 : ∀ p ∈ m, p.1.length = 9) (st : EnhanceState) (fund : FundInfo)
    (h : ∀ f ∈ st.result, enhanced_consistent m f) :
    ∀ f ∈ (enhance_step m families cats strip_rubbish st fund).result,
      enhanced_consistent m f := by
  intro f hf
  simp only [enhance_step] at hf
  split at hf
  · exact h f hf
  · next cusip ti heq =>
    split at hf
    · exact h f hf
    · split at hf
      · exact h f hf
      · next cat hcat =>
        split at hf
        · exact h f hf
        · rcases List.mem_append.1 hf with hf | hf
          · exact h f hf
          · have hf4 := List.mem_singleton.1 hf
            subst hf4
            obtain ⟨hlk, htr⟩ := result_for_fundinfo_sound heq
            have hc9 : cusip.length = 9 := by
              rcases List.mem_map.1 (cacheLookup_mem_keys hlk) with ⟨p, hpm, hpk⟩
              rw [← hpk]
              exact hwf9 p hpm
            exact ⟨cusip, ti, hlk, htr, rfl, rfl, hc9, rfl⟩

theorem enhance_fold_inv (m : Cache) (families : List String)
    (cats : String → Option String) (strip_rubbish : String → String)
    (hwf9 : ∀ p ∈ m, p.1.length = 9) :
    ∀ (funds : List FundInfo) (st : EnhanceState),
      (∀ f ∈ st.result, enhanced_consistent m f) →
      ∀ f ∈ (funds.foldl (enhance_step m families cats strip_rubbish) st).result,
        enhanced_consistent m f := by
  intro funds
  induction funds with
  | nil =>
    intro st h f hf
    exact h f hf
  | cons g rest ih =>
    intro st h f hf
    rw [List.foldl_cons] at hf
    exact ih (enhance_step m families cats strip_rubbish st g)
      (enhance_step_inv m families cats strip_rubbish hwf9 st g h) f hf

/-- **C7.** Every record `enhance_fund_data` emits carries the ticker
of the entry its resolved key maps to, its `cusip` is the resolved
9-character key itself, and its `isin` is `"US"` ++ that cusip ++ the
computed ISIN check digit — the two identifiers are mutually
consistent.  (The key lengths come from the dictionary, whose keys the
upstream stages keep at 9 characters.) -/
theorem claim_C7_enhanced_identifiers (funds : List FundInfo) (m : Cache)
    (families : List String) (cats : String → Option String)
    (strip_rubbish : String → String) (out : List FundInfo)
    (hwf9 : ∀ p ∈ m, p.1.length = 9)
    (hout : enhance_fund_data funds m families cats strip_rubbish = some out) :
    ∀ f ∈ out, ∃ c ti, cacheLookup m c = some ti ∧ truthyOS ti.ticker = true
      ∧ f.ticker = ti.ticker ∧ f.cusip = some c ∧ c.length = 9
      ∧ f.isin = some ("US" ++ c ++ isin_check_digit ("US" ++ c)) := by
  intro f hf
  simp only [enhance_fund_data] at hout
  split at hout
  · exact absurd hout (by simp)
  · have hout2 := Option.some_injective _ hout
    rw [← hout2, mem_sort_funds] at hf
    exact enhance_fold_inv m families cats strip_rubbish hwf9 funds
      { result := [], seen_cusips := [], uncategorized := false }
      (by intro f' hf'; exact absurd hf' (by simp)) f hf

def c7fund : FundInfo where
  share_class_ref := some "REF7"
  family := some "Acme Growth"
  fund_name := some "Acme Value Fund"
  isin := some "US0378331005"
  cusip := some "037833100"
  from_date := some "01/01/2020"
  to_date := none

def c7map : Cache := [("037833100", { ticker := some "AAPL", cusip := "037833100" })]

def c7cats : String → Option String :=
  fun c => if c == "037833100" then some "Equity" else none

def c7out : List FundInfo :=
  (enhance_fund_data [c7fund] c7map ["Acme"] c7cats (fun s => s)).getD []

/-- Witness for `claim_C7_enhanced_identifiers` on a one-fund run that
resolves through the ISIN. -/
theorem claim_C7_witness :
    ((∀ p ∈ c7map, p.1.length = 9)
        ∧ enhance_fund_data [c7fund] c7map ["Acme"] c7cats (fun s => s) = some c7out)
      ∧ ∀ f ∈ c7out, ∃ c ti, cacheLookup c7map c = some ti ∧ truthyOS ti.ticker = true
          ∧ f.ticker = ti.ticker ∧ f.cusip = some c ∧ c.length = 9
          ∧ f.isin = some ("US" ++ c ++ isin_check_digit ("US" ++ c)) :=
  ⟨⟨by decide, by decide⟩,
    claim_C7_enhanced_identifiers [c7fund] c7map ["Acme"] c7cats (fun s => s) c7out
      (by decide) (by decide)⟩

def c8fund : FundInfo where
  share_class_ref := some "REF8"
  family := some "Acme Group"
  fund_name := some "ACME GROUP Growth Fund"
  isin := some "US0378331005"
  cusip := some "037833100"
  from_date := some "01/01/2020"
  to_date := none

/-- **C8.** The claim (and the spec) say the leading family name is
stripped from the fund name case-insensitively, but the source passes
`re.I` as `re.sub`'s positional `count` argument instead of `flags`,
so the strip is case-sensitive: with family `Acme Group` the emitted
name `ACME GROUP Growth Fund` — a case-insensitive copy of the family
plus whitespace — keeps its prefix (first and last conjuncts), while
the described cleanup would yield `Growth Fund` (third conjunct); only
a byte-identical prefix is stripped (second conjunct). -/
theorem claim_C8_family_strip_case_sensitive :
    stripFamilyFromName "Acme Group" "ACME GROUP Growth Fund" = "ACME GROUP Growth Fund"
      ∧ stripFamilyFromName "Acme Group" "Acme Group Growth Fund" = "Growth Fund"
      ∧ stripFamilyFromName_ci "Acme Group" "ACME GROUP Growth Fund" = "Growth Fund"
      ∧ (enhance_fund_data [c8fund] c7map ["Acme Group"] c7cats (fun s => s)).map
          (fun l => l.map FundInfo.fund_name)
        = some [some "ACME GROUP Growth Fund"] := by
  refine ⟨by decide, by decide, by decide, by decide⟩

end UkEtf
